import Mathlib

/-!
Verification development for the dg-lab-mcp core: the waveform codec
(`parseWaveform` / `encodeWaveform` / `convertToHexWaveforms` / `getOutputValue`),
the in-memory session store (`SessionManager`), and the WebSocket protocol
bridge (`DGLabWSServer`).

The TypeScript source is shallowly embedded:
 - JavaScript strings are modelled as `List Char` (wrapped in `String` at the
   API boundary); all string primitives used by the source (`split`,
   `indexOf`/`substring`, `startsWith`, `includes`, `toLowerCase`, `trim`)
   are defined below with JavaScript semantics.
 - JavaScript numbers are modelled as `ℚ`.  `Number(s)` is modelled for
   decimal numeric literals (optional sign, digits, one optional decimal
   point, surrounding whitespace); `x || d` falsy-defaulting and
   `Math.round` (round half towards positive infinity) are modelled exactly.
 - Stateful classes become explicit state types with pure step functions
   returning `(sent messages, new state)`; reachability is an inductive
   predicate over those steps.
-/

/-! ## List/char primitives with JavaScript semantics -/

/-- Whitespace recognised by the model of `String.prototype.trim`. -/
def wsp (c : Char) : Bool := c = ' ' || c = '\t' || c = '\n' || c = '\r'

/-- Model of `s.trim()`. -/
def trimL (l : List Char) : List Char :=
  ((l.dropWhile wsp).reverse.dropWhile wsp).reverse

/-- ASCII decimal digit test. -/
def isDigitC (c : Char) : Bool := '0' ≤ c && c ≤ '9'

/-- Value of an ASCII digit. -/
def digitVal (c : Char) : ℕ := c.toNat - 48

/-- Value of a big-endian ASCII digit string. -/
def digitsVal (l : List Char) : ℕ := l.foldl (fun a c => 10 * a + digitVal c) 0

/-- ASCII digit character for `d < 10`. -/
def digitChar (d : ℕ) : Char := Char.ofNat (48 + d)

/-- Big-endian decimal digits of a natural number (JavaScript `toString`). -/
def natToChars (n : ℕ) : List Char :=
  if _h : n < 10 then [digitChar n]
  else natToChars (n / 10) ++ [digitChar (n % 10)]
  decreasing_by exact Nat.div_lt_self (by omega) (by omega)

/-- Model of `a.startsWith(b)` on char lists. -/
def lstartsWith : List Char → List Char → Bool
  | _, [] => true
  | [], _ :: _ => false
  | x :: xs, y :: ys => x = y && lstartsWith xs ys

/-- Split on a single character, JavaScript `s.split(c)` semantics. -/
def splitC (c : Char) : List Char → List (List Char)
  | [] => [[]]
  | x :: xs =>
    if x = c then [] :: splitC c xs
    else
      match splitC c xs with
      | [] => [[x]]
      | a :: as => (x :: a) :: as

/-- Join with a separator (JavaScript `parts.join(sep)`). -/
def joinSep (sep : List Char) : List (List Char) → List Char
  | [] => []
  | [x] => x
  | x :: xs => x ++ sep ++ joinSep sep xs

/-- First-occurrence break: models `indexOf(c)` plus the two `substring`
calls around it; `none` when `indexOf` returns `-1`. -/
def breakFirst (c : Char) : List Char → Option (List Char × List Char)
  | [] => none
  | x :: xs =>
    if x = c then some ([], xs)
    else (breakFirst c xs).map (fun p => (x :: p.1, p.2))

/-- Model of `s.includes(c)` for a single character. -/
def containsChar (c : Char) (l : List Char) : Bool := l.any (· = c)

/-- ASCII lowercasing of one character (model of `toLowerCase`). -/
def lowerC (c : Char) : Char :=
  if 'A' ≤ c ∧ c ≤ 'Z' then Char.ofNat (c.toNat + 32) else c

/-- ASCII lowercasing of a char list. -/
def lowerL (l : List Char) : List Char := l.map lowerC

/-! ## JavaScript number model -/

/-- Leading-sign extraction for the numeric literal grammar. -/
def signSplit (l : List Char) : ℚ × List Char :=
  match l with
  | [] => (1, [])
  | c :: rest =>
    if c = '-' then (-1, rest) else if c = '+' then (1, rest) else (1, c :: rest)

/-- Core of `Number(s)` after trimming: decimal literals only,
`none` models `NaN`. -/
def jsNumberCore (l : List Char) : Option ℚ :=
  if l = [] then some 0
  else
    let su : ℚ × List Char := signSplit l
    match splitC '.' su.2 with
    | [a] =>
      if a ≠ [] ∧ a.all isDigitC then some (su.1 * digitsVal a) else none
    | [a, b] =>
      if (a ≠ [] ∨ b ≠ []) ∧ a.all isDigitC ∧ b.all isDigitC then
        some (su.1 * ((digitsVal a : ℚ) + (digitsVal b : ℚ) / 10 ^ b.length))
      else none
    | _ => none

/-- Model of JavaScript `Number(s)`. -/
def jsNumber (l : List Char) : Option ℚ := jsNumberCore (trimL l)

/-- Model of `Number(s) || d` (NaN and 0 are falsy). -/
def numOr (l : List Char) (d : ℚ) : ℚ :=
  match jsNumber l with
  | none => d
  | some q => if q = 0 then d else q

/-- Model of `Number(parts[i]) || d` (an out-of-range index reads
`undefined`, and `Number(undefined)` is NaN). -/
def numAt (ls : List (List Char)) (i : ℕ) (d : ℚ) : ℚ :=
  match ls.get? i with
  | none => d
  | some s => numOr s d

/-- Model of JavaScript `Math.round`: round half towards positive infinity. -/
def jround (q : ℚ) : ℤ := ⌊q + 1 / 2⌋

/-- Scale-finding loop for printing: smallest number of decimal digits that
makes `q * 10 ^ k` an integer, found by repeated multiplication by 10 with
`q.den` as fuel. -/
def findScaleF : ℕ → ℚ → ℕ
  | 0, _ => 0
  | fuel + 1, q => if q.den = 1 then 0 else 1 + findScaleF fuel (q * 10)

/-- Number of decimal digits used to print `q`. -/
def findScale (q : ℚ) : ℕ := findScaleF q.den q

/-- Pad a digit string on the left with zeros to length at least `k`. -/
def padZeros (k : ℕ) (l : List Char) : List Char :=
  List.replicate (k - l.length) '0' ++ l

/-- Model of JavaScript number-to-string conversion for the decimal
rationals produced by `jsNumber`: exact decimal expansion with a sign. -/
def printNum (q : ℚ) : List Char :=
  let k := findScale q
  let m : ℤ := (q * 10 ^ k).num
  let ds := padZeros (k + 1) (natToChars m.natAbs)
  let t := ds.length - k
  (if m < 0 then ['-'] else []) ++
    (if k = 0 then ds else ds.take t ++ '.' :: ds.drop t)

/-- Model of `(m : integer).toString()`. -/
def printInt (m : ℤ) : List Char :=
  (if m < 0 then ['-'] else []) ++ natToChars m.natAbs

/-- Model of `m.toFixed(2)` for the integer strengths stored by the parser. -/
def toFixed2 (m : ℤ) : List Char := printInt m ++ '.' :: ['0', '0']

/-! ## Waveform codec data model (src: waveform parser module) -/

/-- Waveform shape data point.  `strength` is `Math.round(Number(s) || 0)`
(an integer); `shapeType` is `Number(t) || 0`. -/
structure WaveformShapePoint where
  shapeType : ℚ
  strength : ℤ
deriving DecidableEq, Repr

/-- Waveform section. -/
structure WaveformSection where
  index : ℕ
  enabled : Bool
  startFrequency : ℚ
  endFrequency : ℚ
  duration : ℚ
  frequencyMode : ℚ
  shape : List WaveformShapePoint
deriving DecidableEq, Repr

/-- Waveform metadata. -/
structure WaveformMetadata where
  startFrequencies : List ℚ
  endFrequencies : List ℚ
  durations : List ℚ
  frequencyModes : List ℚ
  section2Enabled : Bool
  section3Enabled : Bool
  playbackSpeed : ℚ
deriving DecidableEq, Repr

/-- Complete parsed waveform (the `createdAt : Date` field of the source is
wall-clock input and is not modelled). -/
structure ParsedWaveform where
  name : String
  metadata : WaveformMetadata
  sections : List WaveformSection
  rawData : String
  hexWaveforms : List String
deriving DecidableEq, Repr

/-- Frequency conversion: raw frequency value to output value 10-240,
piecewise linear `x -> fx -> output`, rounded and clamped, exactly the two
conversion tables of the source. -/
def getOutputValue (x : ℚ) : ℤ :=
  let fx : ℚ :=
    if 0 ≤ x ∧ x < 40 then 1 * x + 10
    else if 40 ≤ x ∧ x < 55 then 2 * x + -30
    else if 55 ≤ x ∧ x < 59 then 5 * x + -195
    else if 59 ≤ x ∧ x < 69 then 10 * x + -490
    else if 69 ≤ x ∧ x < 75 then 33 * x + -2099
    else if 75 ≤ x ∧ x < 79 then 50 * x + -3350
    else if 79 ≤ x then 100 * x + -7300
    else 10
  let out : ℚ :=
    if 0 ≤ fx ∧ fx < 100 then 1 * fx + 0
    else if 100 ≤ fx ∧ fx < 660 then (1 / 5) * fx + 80
    else if 660 ≤ fx then (1 / 10) * fx + 140
    else 10
  max 10 (min 240 (jround out))

/-- Validate hex waveform format: 16 hex characters, case-insensitive
(model of the source regex). -/
def isValidHexWaveform (hex : String) : Bool :=
  hex.data.length = 16 &&
    hex.data.all (fun c => isDigitC c || ('a' ≤ c && c ≤ 'f') || ('A' ≤ c && c ≤ 'F'))

/-- The literal tag prefix. -/
def tagChars : List Char := "Dungeonlab+pulse:".data

/-- Lowercased tag, for the case-insensitive prefix regex. -/
def tagLower : List Char := "dungeonlab+pulse:".data

/-- The section separator literal `"+section+"` as an explicit char list. -/
def sepChars : List Char := ['+', 's', 'e', 'c', 't', 'i', 'o', 'n', '+']

/-- Split on the `+section+` separator, JavaScript `split` semantics. -/
def splitSec : List Char → List (List Char)
  | [] => [[]]
  | x :: xs =>
    if lstartsWith (x :: xs) sepChars then [] :: splitSec ((x :: xs).drop 9)
    else
      match splitSec xs with
      | [] => [[x]]
      | a :: as => (x :: a) :: as
  termination_by l => l.length
  decreasing_by
    · simp [List.length_drop]; omega
    · simp

/-- Model of `data.includes("+section+")`. -/
def containsSec (l : List Char) : Bool := decide ((splitSec l).length ≠ 1)

/-- Model of `data.replace(/^Dungeonlab\+pulse:/i, "")`. -/
def stripTag (l : List Char) : List Char :=
  if lstartsWith (lowerL l) tagLower then l.drop 17 else l

/-- Parse one shape item `strength-type` (`item.split("-")` then
destructure the first two fields). -/
def parsePoint (item : List Char) : WaveformShapePoint :=
  let parts := splitC '-' item
  { strength := jround (numAt parts 0 0), shapeType := numAt parts 1 0 }

/-- Header-value extraction: a header containing `=` carries the global
header before its section header (`parts[1] || ""`). -/
def parseHeaderVals (headerPart : List Char) : List (List Char) :=
  if containsChar '=' headerPart then
    splitC ',' (((splitC '=' headerPart).get? 1).getD [])
  else splitC ',' headerPart

/-- Accumulator of the parsing loop: kept sections plus the four 3-slot
metadata arrays. -/
structure PState where
  sections : List WaveformSection
  sf : List ℚ
  ef : List ℚ
  du : List ℚ
  fm : List ℚ
deriving DecidableEq, Repr

/-- One iteration of the section loop: skip an empty part or a part with no
`/`; otherwise parse the header, record metadata at slot `i`, and keep the
section when it is enabled or is section 0. -/
def parseStep (st : PState) (i : ℕ) (sectionData : List Char) : PState :=
  if sectionData = [] then st
  else
    match breakFirst '/' sectionData with
    | none => st
    | some (headerPart, shapePart) =>
      let headerValues := parseHeaderVals headerPart
      let startFreq := numAt headerValues 0 0
      let endFreq := numAt headerValues 1 0
      let duration := numAt headerValues 2 8
      let mode := numAt headerValues 3 1
      let enabled := ((headerValues.get? 4).getD []) ≠ ['0']
      let shapePoints := (splitC ',' shapePart).map parsePoint
      let st1 : PState :=
        { st with
          sf := st.sf.set i startFreq, ef := st.ef.set i endFreq,
          du := st.du.set i duration, fm := st.fm.set i mode }
      if enabled ∨ i = 0 then
        { st1 with
          sections := st1.sections ++
            [{ index := i, enabled := true, startFrequency := startFreq,
               endFrequency := endFreq, duration := duration,
               frequencyMode := mode, shape := shapePoints }] }
      else st1

/-- The section loop: `for (i = 0; i < sectionParts.length && i < 3; i++)`. -/
def parseLoop : List (List Char) → ℕ → PState → PState
  | [], _, st => st
  | p :: rest, i, st =>
    if 3 ≤ i then st else parseLoop rest (i + 1) (parseStep st i p)

/-- The 25 ms sub-sample at slot `m`, quarter `n` of a section: interpolated
clamped strength and mode-dependent remapped frequency. -/
def subSample (s : WaveformSection) (dur : ℚ) (m n : ℕ) : ℤ × ℕ :=
  let len := s.shape.length
  let shapeIdx := (⌊(((m : ℚ) * len) / dur)⌋).toNat
  let nextShapeIdx := min (shapeIdx + 1) (len - 1)
  let currentPoint := s.shape.get? shapeIdx
  let nextPoint := s.shape.get? nextShapeIdx
  let u0 := jround (dur / (len : ℚ))
  let u : ℤ := if u0 = 0 then 1 else u0
  let posInUnit : ℤ := (m : ℤ) % u
  let interpFactor : ℚ := (posInUnit : ℚ) / (u : ℚ) + (n : ℚ) / (4 * (u : ℚ))
  let startStrength : ℤ := match currentPoint with | none => 0 | some p => p.strength
  let endStrength : ℤ :=
    match nextPoint with
    | none => startStrength
    | some p => if p.strength = 0 then startStrength else p.strength
  let strength := jround ((startStrength : ℚ) + ((endStrength : ℚ) - startStrength) * interpFactor)
  let strengthC : ℕ := (max 0 (min 100 strength)).toNat
  let totalProgress : ℚ := (m : ℚ) / dur + (n : ℚ) / (4 * dur)
  let shapeProgress : ℚ := (shapeIdx : ℚ) / (len : ℚ)
  let freq : ℤ :=
    if s.frequencyMode = 1 then getOutputValue s.startFrequency
    else if s.frequencyMode = 2 then
      getOutputValue (s.startFrequency + (s.endFrequency - s.startFrequency) * totalProgress)
    else if s.frequencyMode = 3 then
      getOutputValue (s.startFrequency + (s.endFrequency - s.startFrequency) * interpFactor)
    else if s.frequencyMode = 4 then
      getOutputValue (s.startFrequency + (s.endFrequency - s.startFrequency) * shapeProgress)
    else getOutputValue s.startFrequency
  (freq, strengthC)

/-- All sub-samples of a section: `duration = Math.max(shape.length,
section.duration)` 100 ms slots (a natural `m` iterates while `m < duration`),
4 sub-samples each.  `Math.round` on the already-integer frequency is the
identity and is absorbed into `subSample`. -/
def sectionSamples (s : WaveformSection) : List (ℤ × ℕ) :=
  let dur : ℚ := max ((s.shape.length : ℚ)) s.duration
  let slots := (⌈dur⌉).toNat
  (List.range slots).flatMap (fun m => (List.range 4).map (fun n => subSample s dur m n))

/-- Lowercase hex digit for `d < 16`. -/
def hexDigit (d : ℕ) : Char :=
  if d < 10 then Char.ofNat (48 + d) else Char.ofNat (87 + d)

/-- Model of `v.toString(16).padStart(2, "0")` for byte values. -/
def toHex2 (n : ℕ) : List Char := [hexDigit (n / 16), hexDigit (n % 16)]

/-- Pack 4 consecutive frequency and strength sub-samples into one 16-hex
frame (`waveformFreq[i+k] ?? 10`, `waveformStrength[i+k] ?? 0`). -/
def packFrames (fs : List ℤ) (ss : List ℕ) : List String :=
  match fs with
  | [] => []
  | f :: rest =>
    let fhex := (List.range 4).flatMap (fun k => toHex2 ((((f :: rest).get? k).getD 10).toNat))
    let shex := (List.range 4).flatMap (fun k => toHex2 ((ss.get? k).getD 0))
    String.mk (fhex ++ shex) :: packFrames (rest.drop 3) (ss.drop 4)
  termination_by fs.length
  decreasing_by simp [List.length_drop]; omega

/-- Frames contributed by one section (a section with an empty shape is
skipped). -/
def sectionFrames (s : WaveformSection) : List String :=
  if s.shape = [] then []
  else
    let samples := sectionSamples s
    packFrames (samples.map (·.1)) (samples.map (·.2))

/-- Convert sections to hex waveforms for the device. -/
def convertToHexWaveforms (sections : List WaveformSection) : List String :=
  sections.flatMap sectionFrames

/-- Parse the `Dungeonlab+pulse:` text format into a structured waveform;
`none` models a thrown format error. -/
def parseWaveform (data nm : String) : Option ParsedWaveform :=
  let dl := data.data
  if ¬ (lstartsWith dl tagChars = true) ∧ ¬ (containsSec dl = true) then none
  else
    let sectionParts := splitSec (stripTag dl)
    if sectionParts.length = 0 then none
    else
      let fin := parseLoop sectionParts 0 ⟨[], [0, 0, 0], [0, 0, 0], [0, 0, 0], [1, 1, 1]⟩
      if fin.sections = [] then none
      else
        some
          { name := nm
            metadata :=
              { startFrequencies := fin.sf, endFrequencies := fin.ef,
                durations := fin.du, frequencyModes := fin.fm,
                section2Enabled := decide (1 < fin.sections.length),
                section3Enabled := decide (2 < fin.sections.length),
                playbackSpeed := 1 }
            sections := fin.sections
            rawData := data
            hexWaveforms := convertToHexWaveforms fin.sections }

/-- Text of one section as rebuilt by `encodeWaveform`. -/
def encSection (i : ℕ) (s : WaveformSection) : List Char :=
  let header :=
    joinSep [','] [printNum s.startFrequency, printNum s.endFrequency,
      printNum s.duration, printNum s.frequencyMode,
      if s.enabled then ['1'] else ['0']]
  let shapeData :=
    joinSep [','] (s.shape.map (fun p => toFixed2 p.strength ++ '-' :: printNum p.shapeType))
  (if i = 0 then ("0,1,8=".data) else []) ++ header ++ '/' :: shapeData

/-- Encode a waveform back to text format. -/
def encodeWaveform (w : ParsedWaveform) : String :=
  String.mk (tagChars ++ joinSep sepChars (w.sections.enum.map (fun p => encSection p.1 p.2)))

/-! ## Session store model (src: SessionManager) -/

/-- Session TTL: 1 hour in milliseconds. -/
def SESSION_TTL_MS : ℤ := 3600000

/-- Connection-state updates accepted by `updateConnectionState`
(`Partial<Pick<DeviceSession, "connected" | "boundToApp" | "clientId" |
"targetId" | "ws">>`; the raw transport handle `ws` is not modelled). -/
structure ConnUpdates where
  connected : Option Bool := none
  boundToApp : Option Bool := none
  clientId : Option (Option String) := none
  targetId : Option (Option String) := none
deriving DecidableEq, Repr

/-- Device session record (the transport handle `ws` is not modelled;
timestamps are integer milliseconds). -/
structure DeviceSession where
  deviceId : String
  aliasName : Option String
  clientId : Option String
  targetId : Option String
  connected : Bool
  boundToApp : Bool
  strengthA : ℤ
  strengthB : ℤ
  strengthLimitA : ℤ
  strengthLimitB : ℤ
  lastActive : ℤ
  createdAt : ℤ
deriving DecidableEq, Repr

/-- Is a session expired at time `now` (strictly more than the TTL idle)? -/
def isExpired (now : ℤ) (s : DeviceSession) : Bool :=
  decide (now - s.lastActive > SESSION_TTL_MS)

/-- Map lookup by deviceId (the session list is kept in `Map` insertion
order, which is creation order because deviceIds are fresh UUIDs). -/
def findSession (l : List DeviceSession) (id : String) : Option DeviceSession :=
  l.find? (fun s => s.deviceId = id)

/-- Session removal (`Map.delete`). -/
def removeSession (l : List DeviceSession) (id : String) : List DeviceSession :=
  l.filter (fun s => s.deviceId ≠ id)

/-- Fresh session created by `createSession` at time `now`. -/
def newSession (now : ℤ) (id : String) : DeviceSession :=
  { deviceId := id, aliasName := none, clientId := none, targetId := none,
    connected := false, boundToApp := false, strengthA := 0, strengthB := 0,
    strengthLimitA := 200, strengthLimitB := 200, lastActive := now,
    createdAt := now }

/-- Model of `createSession`. -/
def createSession (now : ℤ) (id : String) (l : List DeviceSession) : List DeviceSession :=
  l ++ [newSession now id]

/-- Model of `getSession`: lazy expiry check, deleting an expired entry at
read time. -/
def getSession (now : ℤ) (id : String) (l : List DeviceSession) :
    Option DeviceSession × List DeviceSession :=
  match findSession l id with
  | none => (none, l)
  | some s => if isExpired now s then (none, removeSession l id) else (some s, l)

/-- Model of `cleanupExpiredSessions` (the periodic sweep body). -/
def cleanupExpiredSessions (now : ℤ) (l : List DeviceSession) : List DeviceSession :=
  l.filter (fun s => ¬ isExpired now s)

/-- Model of `listSessions`: sweep, then return the remainder. -/
def listSessions (now : ℤ) (l : List DeviceSession) : List DeviceSession :=
  cleanupExpiredSessions now l

/-- Model of `setAlias`: fails on an absent or expired session, otherwise
stores the alias verbatim and refreshes `lastActive`. -/
def setAlias (now : ℤ) (id : String) (a : String) (l : List DeviceSession) :
    Bool × List DeviceSession :=
  match findSession l id with
  | none => (false, l)
  | some s =>
    if isExpired now s then (false, l)
    else
      (true, l.map (fun x => if x.deviceId = id then
        { x with aliasName := some a, lastActive := now } else x))

/-- Model of `findByAlias`: all non-expired sessions whose stored alias
equals the query case-insensitively, in stored (creation) order. -/
def findByAlias (now : ℤ) (q : String) (l : List DeviceSession) : List DeviceSession :=
  l.filter (fun s =>
    ¬ isExpired now s && (s.aliasName.map (fun a => lowerL a.data)) = some (lowerL q.data))

/-- Model of `updateConnectionState` (`Object.assign` plus a `lastActive`
refresh; no expiry check). -/
def updateConnectionState (now : ℤ) (id : String) (u : ConnUpdates)
    (l : List DeviceSession) : Bool × List DeviceSession :=
  match findSession l id with
  | none => (false, l)
  | some _ =>
    (true, l.map (fun x => if x.deviceId = id then
      { x with
        connected := u.connected.getD x.connected,
        boundToApp := u.boundToApp.getD x.boundToApp,
        clientId := u.clientId.getD x.clientId,
        targetId := u.targetId.getD x.targetId,
        lastActive := now } else x))

/-- Model of `updateStrength` (no expiry check). -/
def updateStrength (now : ℤ) (id : String) (a b la lb : ℤ)
    (l : List DeviceSession) : Bool × List DeviceSession :=
  match findSession l id with
  | none => (false, l)
  | some _ =>
    (true, l.map (fun x => if x.deviceId = id then
      { x with
        strengthA := a, strengthB := b, strengthLimitA := la,
        strengthLimitB := lb, lastActive := now } else x))

/-- Model of `touchSession` (no expiry check). -/
def touchSession (now : ℤ) (id : String) (l : List DeviceSession) :
    Bool × List DeviceSession :=
  match findSession l id with
  | none => (false, l)
  | some _ =>
    (true, l.map (fun x => if x.deviceId = id then
      { x with lastActive := now } else x))

/-- Session-manager state: the session table plus the last timestamp any
operation ran at (time never goes backwards in one process). -/
structure SMState where
  sessions : List DeviceSession
  clock : ℤ
deriving DecidableEq, Repr

/-- States of the `SessionManager` reachable by its public operations with
monotone wall-clock inputs and fresh UUID deviceIds. -/
inductive SMReachable : SMState → Prop
  | init : SMReachable ⟨[], 0⟩
  | create (s : SMState) (now : ℤ) (id : String) (h : SMReachable s)
      (ht : s.clock ≤ now) (hf : ∀ x ∈ s.sessions, x.deviceId ≠ id) :
      SMReachable ⟨createSession now id s.sessions, now⟩
  | get (s : SMState) (now : ℤ) (id : String) (h : SMReachable s)
      (ht : s.clock ≤ now) : SMReachable ⟨(getSession now id s.sessions).2, now⟩
  | cleanup (s : SMState) (now : ℤ) (h : SMReachable s) (ht : s.clock ≤ now) :
      SMReachable ⟨cleanupExpiredSessions now s.sessions, now⟩
  | setAl (s : SMState) (now : ℤ) (id a : String) (h : SMReachable s)
      (ht : s.clock ≤ now) : SMReachable ⟨(setAlias now id a s.sessions).2, now⟩
  | updConn (s : SMState) (now : ℤ) (id : String) (u : ConnUpdates) (h : SMReachable s)
      (ht : s.clock ≤ now) : SMReachable ⟨(updateConnectionState now id u s.sessions).2, now⟩
  | updStr (s : SMState) (now : ℤ) (id : String) (a b la lb : ℤ) (h : SMReachable s)
      (ht : s.clock ≤ now) : SMReachable ⟨(updateStrength now id a b la lb s.sessions).2, now⟩
  | touch (s : SMState) (now : ℤ) (id : String) (h : SMReachable s)
      (ht : s.clock ≤ now) : SMReachable ⟨(touchSession now id s.sessions).2, now⟩
  | del (s : SMState) (now : ℤ) (id : String) (h : SMReachable s)
      (ht : s.clock ≤ now) : SMReachable ⟨removeSession s.sessions id, now⟩
  | clearAll (s : SMState) (now : ℤ) (h : SMReachable s) (ht : s.clock ≤ now) :
      SMReachable ⟨[], now⟩

/-! ## Protocol bridge model (src: DGLabWSServer) -/

/-- A DG-LAB wire frame (the optional `channel`/`time` fields are absent
from every frame the bridge constructs or inspects and are not modelled). -/
structure WireMsg where
  typ : String
  clientId : String
  targetId : String
  message : String
deriving DecidableEq, Repr

/-- Endpoint role. -/
inductive ClientType
  | unknown
  | controller
  | app
deriving DecidableEq, Repr

/-- Endpoint bookkeeping (`lastActive` and the waveform timers play no role
in the claims and are not modelled; `wsOpen` models `ws.readyState ===
OPEN`, with a virtual controller's log-sink socket always open). -/
structure ClientInfo where
  id : String
  ctype : ClientType
  boundTo : Option String
  wsOpen : Bool
deriving DecidableEq, Repr

/-- Bridge state: the endpoint table and the pairing relation
(controllerId -> appId), both in insertion order. -/
structure WSState where
  clients : List (String × ClientInfo)
  relations : List (String × String)
deriving DecidableEq, Repr

/-- Association-list lookup (JavaScript `Map.get`). -/
def lookupA {β : Type} (l : List (String × β)) (k : String) : Option β :=
  match l with
  | [] => none
  | (k', v) :: t => if k' = k then some v else lookupA t k

/-- Association-list insert (JavaScript `Map.set`: replace in place or
append). -/
def setA {β : Type} (l : List (String × β)) (k : String) (v : β) :
    List (String × β) :=
  match l with
  | [] => [(k, v)]
  | (k', v') :: t => if k' = k then (k, v) :: t else (k', v') :: setA t k v

/-- Association-list delete (JavaScript `Map.delete`). -/
def eraseKey {β : Type} (l : List (String × β)) (k : String) : List (String × β) :=
  l.filter (fun p => p.1 ≠ k)

/-- Update the value stored at a key, if present (entry-wise map that
rewrites the value at `k` and keeps everything else). -/
def updateA {β : Type} : List (String × β) → String → (β → β) → List (String × β)
  | [], _, _ => []
  | (k', v') :: t, k, f =>
    (if k' = k then (k', f v') else (k', v')) :: updateA t k f

/-- Does the relation table have this key (`relations.has(id)`)? -/
def hasKey (l : List (String × String)) (k : String) : Bool :=
  (lookupA l k).isSome

/-- Does the relation table have this value
(`[...relations.values()].includes(id)`)? -/
def hasVal (l : List (String × String)) (v : String) : Bool :=
  l.any (fun p => p.2 = v)

/-- Sending on a socket delivers only when the transport is open
(`ws.readyState === OPEN` check inside `send`). -/
def sendTo (c : ClientInfo) (m : WireMsg) : List (String × WireMsg) :=
  if c.wsOpen then [(c.id, m)] else []

/-- Model of `handleConnection`: register a fresh endpoint and send it the
connection-assignment frame. -/
def acceptConn (st : WSState) (clientId : String) : List (String × WireMsg) × WSState :=
  let info : ClientInfo := { id := clientId, ctype := .unknown, boundTo := none, wsOpen := true }
  ([(clientId, { typ := "bind", clientId := clientId, targetId := "", message := "targetId" })],
   { st with clients := setA st.clients clientId info })

/-- Model of `createController`: a virtual controller endpoint whose mock
socket is always open; nothing is sent. -/
def createController (st : WSState) (clientId : String) : WSState :=
  let info : ClientInfo := { id := clientId, ctype := .controller, boundTo := none, wsOpen := true }
  { st with clients := setA st.clients clientId info }

/-- Model of `handleBind`: on an app-initiated `DGLAB` bind request, check
that both named ids are known (else `401` to the initiator), that neither is
already a pairing source or target (else `400` to the initiator), then
insert the relation, tag both endpoints, and notify both with `200`. -/
def handleBind (st : WSState) (senderId : String) (d : WireMsg) :
    List (String × WireMsg) × WSState :=
  match lookupA st.clients senderId with
  | none => ([], st)
  | some client =>
    if d.message = "DGLAB" ∧ d.clientId ≠ "" ∧ d.targetId ≠ "" then
      let controllerId := d.clientId
      let appId := d.targetId
      if (lookupA st.clients controllerId).isNone ∨ (lookupA st.clients appId).isNone then
        (sendTo client { typ := "bind", clientId := controllerId, targetId := appId, message := "401" }, st)
      else if hasKey st.relations controllerId ∨ hasVal st.relations controllerId ∨
          hasKey st.relations appId ∨ hasVal st.relations appId then
        (sendTo client { typ := "bind", clientId := controllerId, targetId := appId, message := "400" }, st)
      else
        let clients1 :=
          updateA (updateA st.clients controllerId
              (fun c => { c with ctype := .controller, boundTo := some appId }))
            appId (fun c => { c with ctype := .app, boundTo := some controllerId })
        let successMsg : WireMsg :=
          { typ := "bind", clientId := controllerId, targetId := appId, message := "200" }
        let sends :=
          (match lookupA st.clients controllerId with
           | some cc => sendTo cc successMsg
           | none => []) ++
          (match lookupA st.clients appId with
           | some ac => sendTo ac successMsg
           | none => [])
        (sends, { clients := clients1, relations := st.relations ++ [(controllerId, appId)] })
    else ([], st)

/-- Model of `forwardMessage`: silently drop when the sender records no
partner; `402` when the pairing relation contains the sender in neither
direction; otherwise forward verbatim to the partner when present, else
reply `404` to the sender.  The bridge state is unchanged. -/
def forwardMessage (st : WSState) (fromClientId : String) (d : WireMsg) :
    List (String × WireMsg) :=
  match lookupA st.clients fromClientId with
  | none => []
  | some client =>
    match client.boundTo with
    | none => []
    | some bt =>
      let boundId : Option String :=
        match lookupA st.relations fromClientId with
        | some v => some v
        | none => ((st.relations.find? (fun p => p.2 = fromClientId)).map (·.1))
      match boundId with
      | none =>
        sendTo client { typ := "bind", clientId := d.clientId, targetId := d.targetId, message := "402" }
      | some _ =>
        match lookupA st.clients bt with
        | some targetClient => sendTo targetClient d
        | none =>
          sendTo client { typ := "msg", clientId := d.clientId, targetId := d.targetId, message := "404" }

/-- Model of `handleClose`: notify and force-close a bound partner with
`break`/`209`, clear the pairing in both directions, and drop the endpoint. -/
def handleClose (st : WSState) (clientId : String) : List (String × WireMsg) × WSState :=
  match lookupA st.clients clientId with
  | none => ([], st)
  | some client =>
    match client.boundTo with
    | none => ([], { st with clients := eraseKey st.clients clientId })
    | some b =>
      let pair :=
        match lookupA st.clients b with
        | none => (([] : List (String × WireMsg)), st.clients)
        | some partner =>
          (sendTo partner { typ := "break", clientId := b, targetId := clientId, message := "209" },
           updateA st.clients b (fun c => { c with wsOpen := false, boundTo := none }))
      (pair.1,
       { clients := eraseKey pair.2 clientId,
         relations := eraseKey (eraseKey st.relations clientId) b })

/-- Bridge states reachable from an empty server by connection accept,
virtual-controller creation, bind requests and close events (ids assigned
by `uuidv4` are fresh).  Frame routing (`forwardMessage` and the telemetry
hooks) does not mutate this state. -/
inductive WSReachable : WSState → Prop
  | init : WSReachable ⟨[], []⟩
  | accept (s : WSState) (id : String) (h : WSReachable s)
      (hf : lookupA s.clients id = none) : WSReachable (acceptConn s id).2
  | createCtrl (s : WSState) (id : String) (h : WSReachable s)
      (hf : lookupA s.clients id = none) : WSReachable (createController s id)
  | bind (s : WSState) (sender : String) (d : WireMsg) (h : WSReachable s) :
      WSReachable (handleBind s sender d).2
  | close (s : WSState) (id : String) (h : WSReachable s) :
      WSReachable (handleClose s id).2

/-- Error code mapping of the source (`mapDGLabErrorCode`), modelled for
the known codes. -/
def mapDGLabErrorCode (code : ℕ) : Option String :=
  lookupA [("200", "success"), ("209", "peer disconnected"), ("210", "no clientID"),
    ("211", "no app id"), ("400", "already bound"), ("401", "target missing"),
    ("402", "not bound"), ("403", "bad json"), ("404", "recipient offline"),
    ("405", "too long"), ("500", "server error")] (String.mk (natToChars code))

/-! ## Basic codec lemmas -/

theorem splitC_ne_nil (c : Char) (l : List Char) : splitC c l ≠ [] := by
  induction l with
  | nil => simp [splitC]
  | cons x xs ih =>
    simp only [splitC]
    split
    · simp
    · split
      · simp
      · simp

theorem splitSec_ne_nil (l : List Char) : splitSec l ≠ [] := by
  induction l using splitSec.induct with
  | case1 => simp [splitSec]
  | case2 x xs h ih => rw [splitSec]; simp [h]
  | case3 x xs h heq => rw [splitSec]; simp [h, heq]
  | case4 x xs h a as heq ih => rw [splitSec]; simp [h, heq]

/-- Value of `getOutputValue` is clamped into the device range. -/
theorem getOutputValue_mem (x : ℚ) :
    10 ≤ getOutputValue x ∧ getOutputValue x ≤ 240 := by
  unfold getOutputValue
  refine ⟨le_max_left _ _, max_le (by norm_num) (min_le_left _ _)⟩

/--
C5: the frequency remapping function returns an integer in [10, 240] for
every (finite) rational input, and maps 0, 10, 40 to exactly 10, 20, 50.
-/
theorem c5_remap_frequency_range_and_values :
    (∀ x : ℚ, 10 ≤ getOutputValue x ∧ getOutputValue x ≤ 240) ∧
      getOutputValue 0 = 10 ∧ getOutputValue 10 = 20 ∧ getOutputValue 40 = 50 :=
  ⟨getOutputValue_mem, by with_unfolding_all decide, by with_unfolding_all decide,
    by with_unfolding_all decide⟩

/-! ## Decimal rationals and parse invariants -/

/-- A rational with a power-of-ten denominator: exactly the values the
JavaScript number model can produce and print exactly. -/
def GoodQ (q : ℚ) : Prop := ∃ k : ℕ, (q * 10 ^ k).den = 1

theorem GoodQ_intCast (z : ℤ) : GoodQ (z : ℚ) :=
  ⟨0, by simp⟩

theorem GoodQ_natCast (n : ℕ) : GoodQ (n : ℚ) :=
  ⟨0, by simp⟩

theorem GoodQ_neg {q : ℚ} (h : GoodQ q) : GoodQ (-q) := by
  obtain ⟨k, hk⟩ := h
  exact ⟨k, by rw [neg_mul]; rw [Rat.den_neg_eq_den]; exact hk⟩

theorem GoodQ_frac (A B kb : ℕ) : GoodQ ((A : ℚ) + (B : ℚ) / 10 ^ kb) := by
  refine ⟨kb, ?_⟩
  have h10 : (10 : ℚ) ^ kb ≠ 0 := by positivity
  have : ((A : ℚ) + (B : ℚ) / 10 ^ kb) * 10 ^ kb = ((A * 10 ^ kb + B : ℕ) : ℚ) := by
    push_cast
    field_simp
  rw [this, Rat.den_natCast]

theorem signSplit_sign (l : List Char) :
    (signSplit l).1 = 1 ∨ (signSplit l).1 = -1 := by
  unfold signSplit
  split
  · exact Or.inl rfl
  · split
    · exact Or.inr rfl
    · split
      · exact Or.inl rfl
      · exact Or.inl rfl

theorem jsNumberCore_good {l : List Char} {q : ℚ} (h : jsNumberCore l = some q) :
    GoodQ q := by
  unfold jsNumberCore at h
  split at h
  · obtain rfl : (0 : ℚ) = q := Option.some.inj h
    exact ⟨0, by norm_num⟩
  · dsimp only at h
    rcases signSplit_sign l with hs | hs <;> rw [hs] at h <;> split at h
    all_goals
      first
        | (split at h
           · obtain rfl := Option.some.inj h
             first
               | (rw [one_mul]; exact GoodQ_natCast _)
               | (rw [one_mul]; exact GoodQ_frac _ _ _)
               | (rw [neg_one_mul]; exact GoodQ_neg (GoodQ_natCast _))
               | (rw [neg_one_mul]; exact GoodQ_neg (GoodQ_frac _ _ _))
           · exact absurd h (by simp))
        | exact absurd h (by simp)

theorem jsNumber_good {l : List Char} {q : ℚ} (h : jsNumber l = some q) : GoodQ q :=
  jsNumberCore_good h

theorem numOr_good {l : List Char} {d : ℚ} (hd : GoodQ d) : GoodQ (numOr l d) := by
  unfold numOr
  split
  · exact hd
  · split
    · exact hd
    · rename_i q hq _
      exact jsNumber_good hq

theorem numOr_ne_zero {l : List Char} {d : ℚ} (hd : d ≠ 0) : numOr l d ≠ 0 := by
  unfold numOr
  split
  · exact hd
  · split
    · exact hd
    · assumption

theorem numAt_good {ls : List (List Char)} {i : ℕ} {d : ℚ} (hd : GoodQ d) :
    GoodQ (numAt ls i d) := by
  unfold numAt
  split
  · exact hd
  · exact numOr_good hd

theorem numAt_ne_zero {ls : List (List Char)} {i : ℕ} {d : ℚ} (hd : d ≠ 0) :
    numAt ls i d ≠ 0 := by
  unfold numAt
  split
  · exact hd
  · exact numOr_ne_zero hd

/-- Everything the parser guarantees about a kept section. -/
def SecGood (s : WaveformSection) : Prop :=
  s.enabled = true ∧ s.shape ≠ [] ∧
    GoodQ s.startFrequency ∧ GoodQ s.endFrequency ∧
    GoodQ s.duration ∧ s.duration ≠ 0 ∧
    GoodQ s.frequencyMode ∧ s.frequencyMode ≠ 0 ∧
    (∀ p ∈ s.shape, GoodQ p.shapeType)

theorem mem_parseStep {st : PState} {i : ℕ} {p : List Char} {s : WaveformSection}
    (h : s ∈ (parseStep st i p).sections) : s ∈ st.sections ∨ SecGood s := by
  unfold parseStep at h
  split at h
  · exact Or.inl h
  · split at h
    · exact Or.inl h
    · rename_i hp sd
      dsimp only at h
      split at h
      · simp only [List.mem_append, List.mem_singleton] at h
        rcases h with h | h
        · exact Or.inl h
        · subst h
          refine Or.inr ⟨rfl, ?_, numAt_good (GoodQ_intCast 0), numAt_good (GoodQ_intCast 0),
            numAt_good ⟨0, by norm_num⟩, numAt_ne_zero (by norm_num),
            numAt_good ⟨0, by norm_num⟩, numAt_ne_zero (by norm_num), ?_⟩
          · simp only [ne_eq, List.map_eq_nil_iff]
            exact splitC_ne_nil _ _
          · intro pt hpt
            simp only [List.mem_map] at hpt
            obtain ⟨it, _, hit⟩ := hpt
            subst hit
            exact numAt_good (GoodQ_intCast 0)
      · exact Or.inl h

theorem mem_parseLoop {parts : List (List Char)} {i : ℕ} {st : PState}
    {s : WaveformSection} (h : s ∈ (parseLoop parts i st).sections) :
    s ∈ st.sections ∨ SecGood s := by
  induction parts generalizing i st with
  | nil => exact Or.inl h
  | cons p rest ih =>
    rw [parseLoop] at h
    split at h
    · exact Or.inl h
    · rcases ih h with h' | h'
      · exact mem_parseStep h'
      · exact Or.inr h'

/-- Shape of a successful `parseWaveform` result: the sections and the hex
frames of the returned structure are those of the final loop state. -/
theorem parseWaveform_some {data nm : String} {w : ParsedWaveform}
    (h : parseWaveform data nm = some w) :
    w.sections ≠ [] ∧ (∀ s ∈ w.sections, SecGood s) ∧
      w.hexWaveforms = convertToHexWaveforms w.sections := by
  unfold parseWaveform at h
  dsimp only at h
  split at h
  · exact absurd h (by simp)
  · split at h
    · exact absurd h (by simp)
    · split at h
      · exact absurd h (by simp)
      · rename_i hne
        rw [Option.some.injEq] at h
        subst h
        refine ⟨hne, ?_, rfl⟩
        intro s hs
        rcases mem_parseLoop hs with h' | h'
        · exact absurd h' (by simp)
        · exact h'

/-! ## Frame-count lemmas and claim C4 -/

theorem packFrames_length (fs : List ℤ) (ss : List ℕ) :
    (packFrames fs ss).length = (fs.length + 3) / 4 := by
  induction fs, ss using packFrames.induct with
  | case1 ss => simp [packFrames]
  | case2 ss f rest ih =>
    rw [packFrames]
    simp only [List.length_cons, ih, List.length_drop]
    omega

theorem length_flatMap_const {α β : Type} (l : List α) (f : α → List β) (c : ℕ)
    (h : ∀ a, (f a).length = c) : (l.flatMap f).length = l.length * c := by
  induction l with
  | nil => simp
  | cons x xs ih => simp [List.flatMap_cons, h, ih, Nat.succ_mul, Nat.add_comm]

theorem sectionSamples_length (s : WaveformSection) :
    (sectionSamples s).length =
      4 * (⌈max ((s.shape.length : ℚ)) s.duration⌉).toNat := by
  unfold sectionSamples
  rw [length_flatMap_const _ _ 4 (fun m => by simp)]
  rw [List.length_range]
  omega

/-- Number of frames contributed by a section with a nonempty shape:
`Math.max(shape.length, duration)` 100 ms slots, rounded up. -/
theorem sectionFrames_length {s : WaveformSection} (h : s.shape ≠ []) :
    (sectionFrames s).length = (⌈max ((s.shape.length : ℚ)) s.duration⌉).toNat := by
  unfold sectionFrames
  rw [if_neg h, packFrames_length, List.length_map, sectionSamples_length]
  omega

/--
C4 counterexample: a section that parses with 3 shape points and a declared
duration of 8 slots synthesises exactly 8 frames, so the pulse element is
not replayed a whole number of times (8 is not a multiple of 3), and the
slot count is not the least multiple of the shape-point count at or above
the declared duration (which would be 9).
-/
theorem c4_counterexample_element_not_replayed :
    (parseWaveform "Dungeonlab+pulse:0,1,8=5,5,8,1,1/10.00-0,20.00-0,30.00-0" "n").map
        (fun w => (w.sections.map (fun s => (s.shape.length, s.duration)), w.hexWaveforms.length)) =
      some ([(3, 8)], 8) ∧
    ¬ (3 ∣ 8) ∧ (8 : ℕ) ≠ 9 := by
  refine ⟨by with_unfolding_all decide, by decide, by decide⟩

/--
C4 (amended): for every section kept by the parser, frame synthesis samples
`Math.max(shape.length, declared duration)` 100 ms slots (rounded up),
playing the pulse element once stretched across that whole span rather than
replaying it; a section is never sampled for fewer slots than its
shape-point count.
-/
theorem c4_amended_slot_count (data nm : String) (w : ParsedWaveform)
    (h : parseWaveform data nm = some w) :
    (∀ s ∈ w.sections,
      (sectionFrames s).length = (⌈max ((s.shape.length : ℚ)) s.duration⌉).toNat ∧
        s.shape.length ≤ (sectionFrames s).length) ∧
      w.hexWaveforms.length = (w.sections.map (fun s => (sectionFrames s).length)).sum := by
  obtain ⟨-, hgood, hhex⟩ := parseWaveform_some h
  constructor
  · intro s hs
    have hne : s.shape ≠ [] := (hgood s hs).2.1
    have hlen := sectionFrames_length hne
    refine ⟨hlen, ?_⟩
    rw [hlen]
    have h1 : ((s.shape.length : ℚ)) ≤ max ((s.shape.length : ℚ)) s.duration :=
      le_max_left _ _
    have h2 : (s.shape.length : ℤ) ≤ ⌈max ((s.shape.length : ℚ)) s.duration⌉ := by
      exact_mod_cast Int.le_ceil_iff.mpr (by push_cast; linarith)
    omega
  · rw [hhex]
    unfold convertToHexWaveforms
    rw [List.length_flatMap]
    rfl

/-- C4 demo: the parse of a concrete three-point, eight-slot section. -/
def c4Demo : ParsedWaveform :=
  { name := "w4"
    metadata :=
      { startFrequencies := [5, 0, 0], endFrequencies := [5, 0, 0],
        durations := [8, 0, 0], frequencyModes := [1, 1, 1],
        section2Enabled := false, section3Enabled := false, playbackSpeed := 1 }
    sections := [
      { index := 0, enabled := true, startFrequency := 5, endFrequency := 5,
        duration := 8, frequencyMode := 1,
        shape := [{ shapeType := 0, strength := 10 }, { shapeType := 0, strength := 20 },
          { shapeType := 0, strength := 30 }] }]
    rawData := "Dungeonlab+pulse:0,1,8=5,5,8,1,1/10.00-0,20.00-0,30.00-0"
    hexWaveforms := ["0f0f0f0f0a0b0c0d", "0f0f0f0f0d0e0f10", "0f0f0f0f11121213",
      "0f0f0f0f14151617", "0f0f0f0f1718191a", "0f0f0f0f1b1c1c1d", "0f0f0f0f1e1e1e1e",
      "0f0f0f0f1e1e1e1e"] }

/-- C4 witness: the amended count at a concrete parse. -/
theorem c4_amended_slot_count_witness :
    (∀ s ∈ c4Demo.sections,
      (sectionFrames s).length = (⌈max ((s.shape.length : ℚ)) s.duration⌉).toNat ∧
        s.shape.length ≤ (sectionFrames s).length) ∧
      c4Demo.hexWaveforms.length =
        (c4Demo.sections.map (fun s => (sectionFrames s).length)).sum :=
  c4_amended_slot_count "Dungeonlab+pulse:0,1,8=5,5,8,1,1/10.00-0,20.00-0,30.00-0" "w4"
    c4Demo (by with_unfolding_all decide)

/-! ## Claim C8: when parsing raises a format error -/

/-- A section part that contributes no kept section: empty, missing the `/`
separator, or (for a part other than the first) disabled by flag `"0"`. -/
def partBad (i : ℕ) (p : List Char) : Prop :=
  p = [] ∨
    match breakFirst '/' p with
    | none => True
    | some (headerPart, _) =>
      i ≠ 0 ∧ ((parseHeaderVals headerPart).get? 4).getD [] = ['0']

instance (i : ℕ) (p : List Char) : Decidable (partBad i p) := by
  unfold partBad
  exact
    match breakFirst '/' p with
    | none => instDecidableOr
    | some _ => instDecidableOr

theorem parseStep_sections_bad {st : PState} {i : ℕ} {p : List Char}
    (h : partBad i p) : (parseStep st i p).sections = st.sections := by
  unfold parseStep
  rcases h with h | h
  · rw [if_pos h]
  · split
    · rfl
    · split at h
      · rfl
      · rename_i hp hps heq
        dsimp only
        rw [if_neg]
        rintro (hen | hi)
        · exact hen (by simpa using h.2)
        · exact h.1 hi

theorem parseStep_sections_good {st : PState} {i : ℕ} {p : List Char}
    (h : ¬ partBad i p) :
    ∃ x, (parseStep st i p).sections = st.sections ++ [x] := by
  unfold partBad at h
  push_neg at h
  obtain ⟨hp, h2⟩ := h
  unfold parseStep
  rw [if_neg hp]
  split
  · rename_i heq
    rw [heq] at h2
    exact absurd trivial h2
  · rename_i hd sd heq
    rw [heq] at h2
    dsimp only
    rw [if_pos]
    · exact ⟨_, rfl⟩
    · by_cases hi : i = 0
      · exact Or.inr hi
      · left
        intro hflag
        exact (h2 ⟨hi, by simpa using hflag⟩)

theorem parseLoop_sections_nil_iff (parts : List (List Char)) (i : ℕ) (st : PState) :
    (parseLoop parts i st).sections = [] ↔
      (st.sections = [] ∧ ∀ j p, parts.get? j = some p → i + j < 3 → partBad (i + j) p) := by
  induction parts generalizing i st with
  | nil =>
    simp only [parseLoop]
    constructor
    · intro h
      exact ⟨h, by intro j p hj _; simp at hj⟩
    · intro h
      exact h.1
  | cons p rest ih =>
    rw [parseLoop]
    split
    · rename_i h3
      constructor
      · intro h
        refine ⟨h, ?_⟩
        intro j q _ hlt
        omega
      · intro h
        exact h.1
    · rename_i h3
      rw [ih]
      constructor
      · rintro ⟨hstep, hrest⟩
        by_cases hb : partBad i p
        · rw [parseStep_sections_bad hb] at hstep
          refine ⟨hstep, ?_⟩
          intro j q hj hlt
          cases j with
          | zero =>
            simp only [List.get?_cons_zero, Option.some.injEq] at hj
            subst hj
            simpa using hb
          | succ j' =>
            simp only [List.get?_cons_succ] at hj
            have := hrest j' q hj (by omega)
            have harith : i + 1 + j' = i + (j' + 1) := by omega
            rwa [harith] at this
        · obtain ⟨x, hx⟩ := @parseStep_sections_good st i p hb
          rw [hx] at hstep
          simp at hstep
      · rintro ⟨hst, hall⟩
        have hb : partBad i p := by
          have := hall 0 p (by simp) (by omega)
          simpa using this
        rw [parseStep_sections_bad hb]
        refine ⟨hst, ?_⟩
        intro j q hj hlt
        have := hall (j + 1) q (by simpa using hj) (by omega)
        have harith : i + (j + 1) = i + 1 + j := by omega
        rwa [harith] at this

/--
C8 (amended): parsing raises a format error exactly when the input neither
starts with the tag prefix nor contains the `+section+` separator, or when
no kept section survives the loop — a part that is empty or lacks the `/`
separator is silently skipped (it does not raise), and a part other than
the first is also skipped when its enabled flag is `"0"`.  On failure no
waveform structure is produced.
-/
theorem c8_amended_error_conditions (data nm : String) :
    parseWaveform data nm = none ↔
      ((lstartsWith data.data tagChars = false ∧ containsSec data.data = false) ∨
        ∀ j p, (splitSec (stripTag data.data)).get? j = some p → j < 3 → partBad j p) := by
  unfold parseWaveform
  dsimp only
  split
  · rename_i hgate
    simp only [true_iff]
    left
    exact ⟨by simpa using hgate.1, by simpa using hgate.2⟩
  · rename_i hgate
    rw [if_neg (by simpa using splitSec_ne_nil (stripTag data.data))]
    have hiff := parseLoop_sections_nil_iff (splitSec (stripTag data.data)) 0
      ⟨[], [0, 0, 0], [0, 0, 0], [0, 0, 0], [1, 1, 1]⟩
    constructor
    · intro h
      split at h
      · rename_i hnil
        right
        have := (hiff.mp hnil).2
        intro j p hj hlt
        have h' := this j p hj (by omega)
        simpa using h'
      · exact absurd h (by simp)
    · intro h
      rcases h with h | h
      · exact absurd (And.intro (by simp [h.1]) (by simp [h.2])) hgate
      · have hnil : (parseLoop (splitSec (stripTag data.data)) 0
            ⟨[], [0, 0, 0], [0, 0, 0], [0, 0, 0], [1, 1, 1]⟩).sections = [] := by
          rw [hiff]
          exact ⟨rfl, by intro j p hj hlt; simpa using h j p hj (by omega)⟩
        rw [if_pos hnil]

/-- C8 witness: a concrete malformed input (no tag, no separator, no valid
section) is rejected with a format error. -/
theorem c8_amended_error_conditions_witness :
    parseWaveform "garbage" "n" = none ∧
      ((lstartsWith "garbage".data tagChars = false ∧ containsSec "garbage".data = false) ∨
        ∀ j p, (splitSec (stripTag "garbage".data)).get? j = some p → j < 3 → partBad j p) :=
  ⟨(c8_amended_error_conditions "garbage" "n").mpr
      (Or.inl ⟨by with_unfolding_all decide, by with_unfolding_all decide⟩),
    Or.inl ⟨by with_unfolding_all decide, by with_unfolding_all decide⟩⟩

/--
C8 counterexample: an input whose second section lacks the `/` separator
parses successfully (the bad section is skipped), although the claim says
such an input raises a format error.
-/
theorem c8_counterexample_missing_slash_not_error :
    (splitSec (stripTag ("Dungeonlab+pulse:0,1,8=1,2,4,1,1/50.00-0+section+noslash").data)).get? 1 =
        some ("noslash".data) ∧
      breakFirst '/' ("noslash".data) = none ∧
      (parseWaveform "Dungeonlab+pulse:0,1,8=1,2,4,1,1/50.00-0+section+noslash" "n").isSome = true := by
  refine ⟨by with_unfolding_all decide, by with_unfolding_all decide, by with_unfolding_all decide⟩

/-! ## Session store lemmas and claims C6, C9, C7 -/

theorem c6_session_expiry (l : List DeviceSession) (now : ℤ) (id : String)
    (s : DeviceSession) (hnd : (l.map (fun x => x.deviceId)).Nodup)
    (hfind : findSession l id = some s) :
    (now - s.lastActive > SESSION_TTL_MS →
      (getSession now id l).1 = none ∧ ∀ x ∈ listSessions now l, x.deviceId ≠ id) ∧
    (now - s.lastActive ≤ SESSION_TTL_MS →
      (getSession now id l).1 = some s ∧ s ∈ listSessions now l) := by
  have hsid : s.deviceId = id := by
    have := List.find?_some hfind
    simpa using this
  have hmem : s ∈ l := List.mem_of_find?_eq_some hfind
  constructor
  · intro hexp
    have hexpb : isExpired now s = true := by simp [isExpired]; omega
    constructor
    · unfold getSession
      rw [hfind]
      simp [hexpb]
    · intro x hx hxid
      unfold listSessions cleanupExpiredSessions at hx
      rw [List.mem_filter] at hx
      have hxs : x = s :=
        List.inj_on_of_nodup_map hnd hx.1 hmem (by rw [hxid, hsid])
      rw [hxs] at hx
      simp [hexpb] at hx
  · intro hok
    have hexpb : isExpired now s = false := by simp [isExpired]; omega
    constructor
    · unfold getSession
      rw [hfind]
      simp [hexpb]
    · unfold listSessions cleanupExpiredSessions
      rw [List.mem_filter]
      exact ⟨hmem, by simp [hexpb]⟩

/--
C6: a session whose idle time exceeds the TTL is evicted at read time
(`getSession` returns nothing) and is absent from the post-sweep list; a
session whose idle time does not exceed the TTL is returned by `getSession`
and remains in the list.
-/
theorem c6_ttl_eviction : (∀ (l : List DeviceSession) (now : ℤ) (id : String)
    (s : DeviceSession), (l.map (fun x => x.deviceId)).Nodup →
    findSession l id = some s →
    (now - s.lastActive > SESSION_TTL_MS →
      (getSession now id l).1 = none ∧ ∀ x ∈ listSessions now l, x.deviceId ≠ id) ∧
    (now - s.lastActive ≤ SESSION_TTL_MS →
      (getSession now id l).1 = some s ∧ s ∈ listSessions now l)) :=
  fun l now id s hnd hfind => c6_session_expiry l now id s hnd hfind

/-- C6 witness: one concrete session, read once beyond the TTL and once
just within it. -/
theorem c6_ttl_eviction_witness :
    ((getSession 4000000 "d" [newSession 0 "d"]).1 = none ∧
      ∀ x ∈ listSessions 4000000 [newSession 0 "d"], x.deviceId ≠ "d") ∧
    ((getSession 3600000 "d" [newSession 0 "d"]).1 = some (newSession 0 "d") ∧
      newSession 0 "d" ∈ listSessions 3600000 [newSession 0 "d"]) :=
  ⟨(c6_ttl_eviction [newSession 0 "d"] 4000000 "d" (newSession 0 "d")
      (by decide) (by decide)).1 (by decide),
   (c6_ttl_eviction [newSession 0 "d"] 3600000 "d" (newSession 0 "d")
      (by decide) (by decide)).2 (by decide)⟩

/--
C9: on a session whose idle time already exceeds the TTL but which is still
in the table, `touchSession`, `updateStrength` and `updateConnectionState`
succeed (returning `true`) and refresh `lastActive`, reviving the session so
that a later `getSession` within the TTL returns it — whereas `getSession`
and `setAlias` check expiry and treat the same session as absent.
-/
theorem c9_mutators_revive_expired (l : List DeviceSession) (now now' : ℤ)
    (id al : String) (s : DeviceSession) (u : ConnUpdates) (a b la lb : ℤ)
    (hfind : findSession l id = some s)
    (hexp : now - s.lastActive > SESSION_TTL_MS) :
    (touchSession now id l).1 = true ∧
    (updateStrength now id a b la lb l).1 = true ∧
    (updateConnectionState now id u l).1 = true ∧
    (getSession now id l).1 = none ∧
    (setAlias now id al l).1 = false ∧
    (now' - now ≤ SESSION_TTL_MS →
      (getSession now' id (touchSession now id l).2).1 =
        some { s with lastActive := now }) := by
  have hsid : s.deviceId = id := by simpa using List.find?_some hfind
  have hexpb : isExpired now s = true := by simp [isExpired]; omega
  refine ⟨?_, ?_, ?_, ?_, ?_, ?_⟩
  · unfold touchSession
    rw [hfind]
  · unfold updateStrength
    rw [hfind]
  · unfold updateConnectionState
    rw [hfind]
  · unfold getSession
    rw [hfind]
    simp [hexpb]
  · unfold setAlias
    rw [hfind]
    simp [hexpb]
  · intro hok
    unfold getSession
    have htl : (touchSession now id l).2 =
        l.map (fun x => if x.deviceId = id then { x with lastActive := now } else x) := by
      unfold touchSession
      rw [hfind]
    rw [htl]
    have hfind' : findSession
        (l.map (fun x => if x.deviceId = id then { x with lastActive := now } else x)) id =
        some { s with lastActive := now } := by
      unfold findSession
      rw [List.find?_map]
      have hcomp :
          ((fun (t : DeviceSession) => decide (t.deviceId = id)) ∘
            (fun (x : DeviceSession) =>
              if x.deviceId = id then { x with lastActive := now } else x)) =
          (fun (x : DeviceSession) => decide (x.deviceId = id)) := by
        funext x
        by_cases hx : x.deviceId = id
        · simp [hx]
        · simp [hx]
      rw [hcomp]
      unfold findSession at hfind
      rw [hfind]
      simp [hsid]
    rw [hfind']
    have : isExpired now' { s with lastActive := now } = false := by
      simp [isExpired]; omega
    simp [this]

/-- C9 witness: concrete expired session revived by `touchSession`. -/
theorem c9_mutators_revive_expired_witness :
    (touchSession 4000000 "d" [newSession 0 "d"]).1 = true ∧
    (updateStrength 4000000 "d" 1 2 3 4 [newSession 0 "d"]).1 = true ∧
    (updateConnectionState 4000000 "d" {} [newSession 0 "d"]).1 = true ∧
    (getSession 4000000 "d" [newSession 0 "d"]).1 = none ∧
    (setAlias 4000000 "d" "x" [newSession 0 "d"]).1 = false ∧
    (4000001 - 4000000 ≤ SESSION_TTL_MS →
      (getSession 4000001 "d" (touchSession 4000000 "d" [newSession 0 "d"]).2).1 =
        some { newSession 0 "d" with lastActive := 4000000 }) :=
  c9_mutators_revive_expired [newSession 0 "d"] 4000000 4000001 "d" "x"
    (newSession 0 "d") {} 1 2 3 4 (by decide) (by decide)

/-! ## Creation order of the session table -/

/-- The session table is ordered by creation time. -/
def SessionsOrdered (l : List DeviceSession) : Prop :=
  l.Pairwise (fun x y => x.createdAt ≤ y.createdAt)

/-- Transfer of the clock bound and ordering through a `createdAt`
preserving map. -/
theorem ordered_map_preserve {l : List DeviceSession} {c : ℤ}
    {f : DeviceSession → DeviceSession}
    (hf : ∀ x, (f x).createdAt = x.createdAt)
    (hb : ∀ x ∈ l, x.createdAt ≤ c) (ho : SessionsOrdered l) :
    (∀ x ∈ l.map f, x.createdAt ≤ c) ∧ SessionsOrdered (l.map f) := by
  constructor
  · intro x hx
    rw [List.mem_map] at hx
    obtain ⟨y, hy, rfl⟩ := hx
    rw [hf]
    exact hb y hy
  · unfold SessionsOrdered at ho ⊢
    rw [List.pairwise_map]
    exact ho.imp (by intro a b hab; rw [hf, hf]; exact hab)

/-- Transfer of the clock bound and ordering to any sublist. -/
theorem ordered_sublist {l l' : List DeviceSession} {c : ℤ}
    (hs : l'.Sublist l) (hb : ∀ x ∈ l, x.createdAt ≤ c) (ho : SessionsOrdered l) :
    (∀ x ∈ l', x.createdAt ≤ c) ∧ SessionsOrdered l' :=
  ⟨fun x hx => hb x (hs.mem hx), ho.sublist hs⟩

/-- Invariant of every reachable `SessionManager` state: all sessions were
created no later than the clock, and the table is in creation order. -/
theorem smreachable_ordered {st : SMState} (h : SMReachable st) :
    (∀ x ∈ st.sessions, x.createdAt ≤ st.clock) ∧ SessionsOrdered st.sessions := by
  induction h with
  | init => exact ⟨by simp, List.Pairwise.nil⟩
  | create s now id h ht hf ih =>
    obtain ⟨hb, ho⟩ := ih
    constructor
    · intro x hx
      rw [createSession, List.mem_append] at hx
      rcases hx with hx | hx
      · exact le_trans (hb x hx) ht
      · simp only [List.mem_singleton] at hx
        rw [hx]
        exact le_refl _
    · unfold SessionsOrdered
      rw [createSession, List.pairwise_append]
      refine ⟨ho, List.pairwise_singleton _ _, ?_⟩
      intro x hx y hy
      simp only [List.mem_singleton] at hy
      rw [hy]
      exact le_trans (hb x hx) ht
  | get s now id h ht ih =>
    have hsub : (getSession now id s.sessions).2.Sublist s.sessions := by
      unfold getSession
      split
      · exact List.Sublist.refl _
      · split
        · unfold removeSession
          exact List.filter_sublist _
        · exact List.Sublist.refl _
    have := ordered_sublist hsub ih.1 ih.2
    exact ⟨fun x hx => le_trans (this.1 x hx) ht, this.2⟩
  | cleanup s now h ht ih =>
    have hsub : (cleanupExpiredSessions now s.sessions).Sublist s.sessions := by
      unfold cleanupExpiredSessions
      exact List.filter_sublist _
    have := ordered_sublist hsub ih.1 ih.2
    exact ⟨fun x hx => le_trans (this.1 x hx) ht, this.2⟩
  | setAl s now id a h ht ih =>
    have hres : (setAlias now id a s.sessions).2 = s.sessions ∨
        ∃ f, (∀ x, (f x).createdAt = x.createdAt) ∧
          (setAlias now id a s.sessions).2 = s.sessions.map f := by
      unfold setAlias
      split
      · exact Or.inl rfl
      · split
        · exact Or.inl rfl
        · exact Or.inr ⟨_, by intro x; split <;> rfl, rfl⟩
    rcases hres with hres | ⟨f, hf, hres⟩ <;> rw [hres]
    · exact ⟨fun x hx => le_trans (ih.1 x hx) ht, ih.2⟩
    · have := ordered_map_preserve hf ih.1 ih.2
      exact ⟨fun x hx => le_trans (this.1 x hx) ht, this.2⟩
  | updConn s now id u h ht ih =>
    have hres : (updateConnectionState now id u s.sessions).2 = s.sessions ∨
        ∃ f, (∀ x, (f x).createdAt = x.createdAt) ∧
          (updateConnectionState now id u s.sessions).2 = s.sessions.map f := by
      unfold updateConnectionState
      split
      · exact Or.inl rfl
      · exact Or.inr ⟨_, by intro x; split <;> rfl, rfl⟩
    rcases hres with hres | ⟨f, hf, hres⟩ <;> rw [hres]
    · exact ⟨fun x hx => le_trans (ih.1 x hx) ht, ih.2⟩
    · have := ordered_map_preserve hf ih.1 ih.2
      exact ⟨fun x hx => le_trans (this.1 x hx) ht, this.2⟩
  | updStr s now id a b la lb h ht ih =>
    have hres : (updateStrength now id a b la lb s.sessions).2 = s.sessions ∨
        ∃ f, (∀ x, (f x).createdAt = x.createdAt) ∧
          (updateStrength now id a b la lb s.sessions).2 = s.sessions.map f := by
      unfold updateStrength
      split
      · exact Or.inl rfl
      · exact Or.inr ⟨_, by intro x; split <;> rfl, rfl⟩
    rcases hres with hres | ⟨f, hf, hres⟩ <;> rw [hres]
    · exact ⟨fun x hx => le_trans (ih.1 x hx) ht, ih.2⟩
    · have := ordered_map_preserve hf ih.1 ih.2
      exact ⟨fun x hx => le_trans (this.1 x hx) ht, this.2⟩
  | touch s now id h ht ih =>
    have hres : (touchSession now id s.sessions).2 = s.sessions ∨
        ∃ f, (∀ x, (f x).createdAt = x.createdAt) ∧
          (touchSession now id s.sessions).2 = s.sessions.map f := by
      unfold touchSession
      split
      · exact Or.inl rfl
      · exact Or.inr ⟨_, by intro x; split <;> rfl, rfl⟩
    rcases hres with hres | ⟨f, hf, hres⟩ <;> rw [hres]
    · exact ⟨fun x hx => le_trans (ih.1 x hx) ht, ih.2⟩
    · have := ordered_map_preserve hf ih.1 ih.2
      exact ⟨fun x hx => le_trans (this.1 x hx) ht, this.2⟩
  | del s now id h ht ih =>
    have hsub : (removeSession s.sessions id).Sublist s.sessions := by
      unfold removeSession
      exact List.filter_sublist _
    have := ordered_sublist hsub ih.1 ih.2
    exact ⟨fun x hx => le_trans (this.1 x hx) ht, this.2⟩
  | clearAll s now h ht ih => exact ⟨by simp, List.Pairwise.nil⟩

/--
C7: `findByAlias` is letter-case insensitive in its query (any two queries
with the same lowercasing yield the same result list), it returns exactly
the non-expired sessions whose stored alias matches case-insensitively —
so when several sessions share an alias, all of them are returned — and on
every reachable store state the result is in creation order (the store list
is in creation order and filtering preserves it).
-/
theorem c7_find_by_alias_case_insensitive (st : SMState) (now : ℤ) (q q' : String)
    (hq : lowerL q.data = lowerL q'.data) :
    findByAlias now q st.sessions = findByAlias now q' st.sessions ∧
    (findByAlias now q st.sessions).Sublist st.sessions ∧
    (∀ x ∈ st.sessions,
      ¬ isExpired now x = true →
      (x.aliasName.map (fun a => lowerL a.data)) = some (lowerL q.data) →
      x ∈ findByAlias now q st.sessions) ∧
    (SMReachable st → SessionsOrdered (findByAlias now q st.sessions)) := by
  refine ⟨?_, ?_, ?_, ?_⟩
  · unfold findByAlias
    rw [hq]
  · exact List.filter_sublist _
  · intro x hx hnexp halias
    unfold findByAlias
    rw [List.mem_filter]
    refine ⟨hx, ?_⟩
    simp only [Bool.and_eq_true, decide_eq_true_eq]
    exact ⟨by simpa using hnexp, halias⟩
  · intro hreach
    exact (smreachable_ordered hreach).2.filter _

/-- A concrete session table: two sessions created in order, both aliased
(with different letter cases) to the same name. -/
def c7DemoSessions : List DeviceSession :=
  (setAlias 3 "b" "fOO"
    ((setAlias 2 "a" "Foo" (createSession 1 "b" (createSession 0 "a" []))).2)).2

/-- The demo table as a reachable session-manager state. -/
def c7DemoState : SMState := ⟨c7DemoSessions, 3⟩

theorem c7DemoState_reachable : SMReachable c7DemoState :=
  SMReachable.setAl ⟨(setAlias 2 "a" "Foo"
      (createSession 1 "b" (createSession 0 "a" []))).2, 2⟩ 3 "b" "fOO"
    (SMReachable.setAl ⟨createSession 1 "b" (createSession 0 "a" []), 1⟩ 2 "a" "Foo"
      (SMReachable.create ⟨createSession 0 "a" [], 0⟩ 1 "b"
        (SMReachable.create ⟨[], 0⟩ 0 "a" SMReachable.init (by decide) (by decide))
        (by decide) (by decide))
      (by decide))
    (by decide)

/-- C7 witness: the theorem applied to the concrete two-session store with
the case-variant queries `"FOO"` and `"Foo"`, also discharging the
reachability hypothesis of the creation-order part. -/
theorem c7_find_by_alias_case_insensitive_witness :
    (findByAlias 3 "FOO" c7DemoState.sessions = findByAlias 3 "Foo" c7DemoState.sessions ∧
      (findByAlias 3 "FOO" c7DemoState.sessions).Sublist c7DemoState.sessions ∧
      (∀ x ∈ c7DemoState.sessions,
        ¬ isExpired 3 x = true →
        (x.aliasName.map (fun a => lowerL a.data)) = some (lowerL "FOO".data) →
        x ∈ findByAlias 3 "FOO" c7DemoState.sessions) ∧
      (SMReachable c7DemoState → SessionsOrdered (findByAlias 3 "FOO" c7DemoState.sessions))) ∧
    SessionsOrdered (findByAlias 3 "FOO" c7DemoState.sessions) :=
  ⟨c7_find_by_alias_case_insensitive c7DemoState 3 "FOO" "Foo" (by decide),
   (c7_find_by_alias_case_insensitive c7DemoState 3 "FOO" "Foo" (by decide)).2.2.2
     c7DemoState_reachable⟩

/-! ## Association-list lemmas for the bridge -/

theorem lookupA_eq_none_iff {β : Type} {l : List (String × β)} {k : String} :
    lookupA l k = none ↔ ∀ v, (k, v) ∉ l := by
  induction l with
  | nil => simp [lookupA]
  | cons p t ih =>
    obtain ⟨k', v'⟩ := p
    unfold lookupA
    split
    · rename_i hk
      subst hk
      simp only [List.mem_cons, not_or]
      constructor
      · intro h
        exact absurd h (by simp)
      · intro h
        exact absurd (h v').1 (by simp)
    · rename_i hk
      rw [ih]
      constructor
      · intro h v hv
        rcases List.mem_cons.mp hv with hv | hv
        · exact hk (by injection hv with h1 _; exact h1.symm)
        · exact h v hv
      · intro h v hv
        exact h v (List.mem_cons_of_mem _ hv)

theorem lookupA_mem {β : Type} {l : List (String × β)} {k : String} {v : β}
    (h : lookupA l k = some v) : (k, v) ∈ l := by
  induction l with
  | nil => simp [lookupA] at h
  | cons p t ih =>
    obtain ⟨k', v'⟩ := p
    unfold lookupA at h
    split at h
    · rename_i hk
      subst hk
      obtain rfl := Option.some.inj h
      exact List.mem_cons_self _ _
    · exact List.mem_cons_of_mem _ (ih h)

theorem lookupA_isSome_of_mem {β : Type} {l : List (String × β)} {k : String} {v : β}
    (h : (k, v) ∈ l) : (lookupA l k).isSome = true := by
  induction l with
  | nil => simp at h
  | cons p t ih =>
    obtain ⟨k', v'⟩ := p
    unfold lookupA
    split
    · simp
    · rename_i hk
      rcases List.mem_cons.mp h with h | h
      · exact absurd (by injection h with h1 _; exact h1.symm) hk
      · exact ih h

theorem lookupA_setA_fresh {β : Type} {l : List (String × β)} {k : String} (v : β)
    (h : lookupA l k = none) : setA l k v = l ++ [(k, v)] := by
  induction l with
  | nil => rfl
  | cons p t ih =>
    obtain ⟨k', v'⟩ := p
    unfold lookupA at h
    unfold setA
    split at h
    · exact absurd h (by simp)
    · rename_i hk
      rw [if_neg hk, ih h]
      rfl

theorem lookupA_append_single {β : Type} (l : List (String × β)) (k j : String) (v : β) :
    lookupA (l ++ [(k, v)]) j =
      match lookupA l j with
      | some w => some w
      | none => if k = j then some v else none := by
  induction l with
  | nil => rfl
  | cons p t ih =>
    obtain ⟨k', v'⟩ := p
    show lookupA ((k', v') :: (t ++ [(k, v)])) j = _
    unfold lookupA
    split
    · rfl
    · exact ih

theorem lookupA_updateA {β : Type} (l : List (String × β)) (k j : String) (f : β → β) :
    lookupA (updateA l k f) j =
      if k = j then (lookupA l j).map f else lookupA l j := by
  induction l with
  | nil => by_cases h : k = j <;> simp [updateA, lookupA, h]
  | cons p t ih =>
    obtain ⟨k', v'⟩ := p
    rw [updateA]
    by_cases hk' : k' = k
    · rw [if_pos hk']
      subst hk'
      by_cases hj : k' = j
      · subst hj
        simp [lookupA, ih]
      · simp [lookupA, hj, ih]
    · rw [if_neg hk']
      by_cases hj : k' = j
      · subst hj
        have hkj : ¬ k = k' := fun h => hk' h.symm
        simp [lookupA, hkj]
      · simp [lookupA, hj, ih]

theorem mem_eraseKey {β : Type} {l : List (String × β)} {k : String}
    {p : String × β} : p ∈ eraseKey l k ↔ p ∈ l ∧ p.1 ≠ k := by
  unfold eraseKey
  rw [List.mem_filter]
  simp

theorem lookupA_eraseKey {β : Type} (l : List (String × β)) (k j : String) :
    lookupA (eraseKey l k) j = if j = k then none else lookupA l j := by
  induction l with
  | nil => by_cases h : j = k <;> simp [eraseKey, lookupA, h]
  | cons p t ih =>
    obtain ⟨k', v'⟩ := p
    unfold eraseKey at ih ⊢
    rw [List.filter_cons]
    by_cases hk : k' = k
    · rw [if_neg (by simp [hk])]
      rw [ih]
      by_cases hj : j = k
      · rw [if_pos hj, if_pos hj]
      · rw [if_neg hj, if_neg hj]
        conv_rhs => rw [lookupA]
        rw [if_neg (by rw [hk]; exact fun h => hj h.symm)]
    · rw [if_pos (by simp [hk])]
      unfold lookupA
      by_cases hj : k' = j
      · subst hj
        rw [if_pos rfl, if_pos rfl, if_neg (fun h => hk h)]
      · rw [if_neg hj, if_neg hj, ih]

theorem keys_updateA {β : Type} (l : List (String × β)) (k : String) (f : β → β) :
    (updateA l k f).map (fun p => p.1) = l.map (fun p => p.1) := by
  induction l with
  | nil => rfl
  | cons p t ih =>
    obtain ⟨k', v'⟩ := p
    rw [updateA]
    by_cases hk : k' = k
    · rw [if_pos hk]
      simp [ih]
    · rw [if_neg hk]
      simp [ih]

theorem keys_eraseKey_sublist {β : Type} (l : List (String × β)) (k : String) :
    ((eraseKey l k).map (fun p => p.1)).Sublist (l.map (fun p => p.1)) :=
  (List.filter_sublist l).map _

theorem hasVal_eq_false_iff {R : List (String × String)} {v : String} :
    hasVal R v = false ↔ ∀ p ∈ R, p.2 ≠ v := by
  unfold hasVal
  rw [← Bool.not_eq_true, List.any_eq_true]
  push_neg
  constructor
  · intro h p hp
    simpa using h p hp
  · intro h p hp
    simpa using h p hp

theorem hasKey_eq_false_iff {R : List (String × String)} {k : String} :
    hasKey R k = false ↔ ∀ v, (k, v) ∉ R := by
  unfold hasKey
  cases hl : lookupA R k with
  | none =>
    constructor
    · intro _
      exact lookupA_eq_none_iff.mp hl
    · intro _
      rfl
  | some v =>
    constructor
    · intro h
      simp at h
    · intro h
      exact absurd (lookupA_mem hl) (h v)

/-! ## The pairing invariant of the bridge -/

/-- Two pairings that share no endpoint at all. -/
def relDiff (p q : String × String) : Prop :=
  p.1 ≠ q.1 ∧ p.2 ≠ q.2 ∧ p.1 ≠ q.2 ∧ p.2 ≠ q.1

/-- The pairing relation is a partial bijection up to self-pairings:
distinct entries are endpoint-disjoint. -/
def RelSound (R : List (String × String)) : Prop := R.Pairwise relDiff

theorem relDiff_symm : Symmetric relDiff := by
  intro p q h
  exact ⟨fun e => h.1 e.symm, fun e => h.2.1 e.symm, fun e => h.2.2.2 e.symm,
    fun e => h.2.2.1 e.symm⟩

theorem relSound_cases {R : List (String × String)} (h : RelSound R)
    {e₁ e₂ : String × String} (h1 : e₁ ∈ R) (h2 : e₂ ∈ R) :
    e₁ = e₂ ∨ relDiff e₁ e₂ := by
  by_cases heq : e₁ = e₂
  · exact Or.inl heq
  · exact Or.inr (h.forall relDiff_symm h1 h2 heq)

theorem mem_lookupA_of_relSound {R : List (String × String)} (h : RelSound R)
    {k v : String} (hm : (k, v) ∈ R) : lookupA R k = some v := by
  induction R with
  | nil => simp at hm
  | cons p t ih =>
    obtain ⟨k', v'⟩ := p
    rcases List.mem_cons.mp hm with hm | hm
    · injection hm with h1 h2
      subst h1; subst h2
      unfold lookupA
      rw [if_pos rfl]
    · have h' : relDiff (k', v') (k, v) ∧ RelSound t := by
        unfold RelSound at h
        rw [List.pairwise_cons] at h
        exact ⟨h.1 _ hm, h.2⟩
      unfold lookupA
      split
      · rename_i hk
        subst hk
        exact absurd rfl h'.1.1
      · exact ih h'.2 hm

/-- Joint invariant of every reachable bridge state. -/
structure WSInv (st : WSState) : Prop where
  relSound : RelSound st.relations
  boundSound : ∀ id c, lookupA st.clients id = some c → ∀ p, c.boundTo = some p →
    (id, p) ∈ st.relations ∨ (p, id) ∈ st.relations
  clientKeys : (st.clients.map (fun p => p.1)).Nodup
  idConsistent : ∀ id c, lookupA st.clients id = some c → c.id = id

theorem key_not_mem_of_lookupA_none {β : Type} {l : List (String × β)} {k : String}
    (h : lookupA l k = none) : k ∉ l.map (fun p => p.1) := by
  intro hk
  rw [List.mem_map] at hk
  obtain ⟨⟨k1, v1⟩, hp, hpk⟩ := hk
  dsimp at hpk
  subst hpk
  exact lookupA_eq_none_iff.mp h v1 hp

/-- Registering a fresh endpoint with no partner preserves the invariant. -/
theorem wsinv_add_fresh {st : WSState} (inv : WSInv st) (id : String)
    (hf : lookupA st.clients id = none) (ct : ClientType) :
    WSInv { st with clients := setA st.clients id ⟨id, ct, none, true⟩ } := by
  rw [lookupA_setA_fresh _ hf]
  refine ⟨inv.relSound, ?_, ?_, ?_⟩
  · intro jd c hjd p hp
    rw [lookupA_append_single] at hjd
    split at hjd
    · rename_i w hw
      exact inv.boundSound jd c (by rw [hw]; exact hjd) p hp
    · split at hjd
      · obtain rfl := Option.some.inj hjd
        simp at hp
      · exact absurd hjd (by simp)
  · rw [List.map_append]
    rw [List.nodup_append]
    exact ⟨inv.clientKeys, List.nodup_singleton _,
      by
        intro x hx hx'
        simp only [List.map_cons, List.map_nil, List.mem_singleton] at hx'
        subst hx'
        exact key_not_mem_of_lookupA_none hf hx⟩
  · intro jd c hjd
    rw [lookupA_append_single] at hjd
    split at hjd
    · rename_i w hw
      exact inv.idConsistent jd c (by rw [hw]; exact hjd)
    · split at hjd
      · rename_i hid
        obtain rfl := Option.some.inj hjd
        exact hid
      · exact absurd hjd (by simp)

/-- The invariant holds in every reachable bridge state. -/
theorem wsreachable_inv {st : WSState} (h : WSReachable st) : WSInv st := by
  induction h with
  | init =>
    exact ⟨List.Pairwise.nil, by intro id c h; simp [lookupA] at h, List.nodup_nil,
      by intro id c h; simp [lookupA] at h⟩
  | accept s id h hf ih =>
    exact wsinv_add_fresh ih id hf .unknown
  | createCtrl s id h hf ih =>
    exact wsinv_add_fresh ih id hf .controller
  | bind s sender d h ih =>
    unfold handleBind
    cases hsender : lookupA s.clients sender with
    | none => exact ih
    | some client =>
      dsimp only
      split
      · split
        · exact ih
        · split
          · exact ih
          · rename_i hguard hknown hbound
            push_neg at hbound
            have hkc : hasKey s.relations d.clientId = false :=
              Bool.not_eq_true _ ▸ hbound.1
            have hvc : hasVal s.relations d.clientId = false :=
              Bool.not_eq_true _ ▸ hbound.2.1
            have hka : hasKey s.relations d.targetId = false :=
              Bool.not_eq_true _ ▸ hbound.2.2.1
            have hva : hasVal s.relations d.targetId = false :=
              Bool.not_eq_true _ ▸ hbound.2.2.2
            refine ⟨?_, ?_, ?_, ?_⟩
            · unfold RelSound
              rw [List.pairwise_append]
              refine ⟨ih.relSound, List.pairwise_singleton _ _, ?_⟩
              intro e he y hy
              simp only [List.mem_singleton] at hy
              subst hy
              obtain ⟨e1, e2⟩ := e
              refine ⟨?_, ?_, ?_, ?_⟩ <;> dsimp only
              · intro he1
                subst he1
                exact hasKey_eq_false_iff.mp hkc e2 he
              · intro he2
                subst he2
                exact hasVal_eq_false_iff.mp hva _ he rfl
              · intro he1
                subst he1
                exact hasKey_eq_false_iff.mp hka e2 he
              · intro he2
                subst he2
                exact hasVal_eq_false_iff.mp hvc _ he rfl
            · intro id c hl p hp
              dsimp only at hl
              rw [lookupA_updateA, lookupA_updateA] at hl
              by_cases hida : d.targetId = id
              · rw [if_pos hida] at hl
                rw [Option.map_eq_some'] at hl
                obtain ⟨w, hw, hwc⟩ := hl
                subst hwc
                simp only at hp
                obtain rfl := Option.some.inj hp
                right
                rw [← hida]
                exact List.mem_append_right _ (List.mem_singleton_self _)
              · rw [if_neg hida] at hl
                by_cases hidc : d.clientId = id
                · rw [if_pos hidc] at hl
                  rw [Option.map_eq_some'] at hl
                  obtain ⟨w, hw, hwc⟩ := hl
                  subst hwc
                  simp only at hp
                  obtain rfl := Option.some.inj hp
                  left
                  rw [← hidc]
                  exact List.mem_append_right _ (List.mem_singleton_self _)
                · rw [if_neg hidc] at hl
                  rcases ih.boundSound id c hl p hp with hm | hm
                  · exact Or.inl (List.mem_append_left _ hm)
                  · exact Or.inr (List.mem_append_left _ hm)
            · dsimp only
              rw [keys_updateA, keys_updateA]
              exact ih.clientKeys
            · intro id c hl
              dsimp only at hl
              rw [lookupA_updateA, lookupA_updateA] at hl
              by_cases hida : d.targetId = id
              · rw [if_pos hida] at hl
                rw [Option.map_eq_some'] at hl
                obtain ⟨w, hw, hwc⟩ := hl
                subst hwc
                by_cases hidc : d.clientId = id
                · rw [if_pos hidc, Option.map_eq_some'] at hw
                  obtain ⟨w', hw', hww⟩ := hw
                  subst hww
                  exact ih.idConsistent id w' hw'
                · rw [if_neg hidc] at hw
                  exact ih.idConsistent id w hw
              · rw [if_neg hida] at hl
                by_cases hidc : d.clientId = id
                · rw [if_pos hidc, Option.map_eq_some'] at hl
                  obtain ⟨w', hw', hww⟩ := hl
                  subst hww
                  exact ih.idConsistent id w' hw'
                · rw [if_neg hidc] at hl
                  exact ih.idConsistent id c hl
      · exact ih
  | close s cid h ih =>
    unfold handleClose
    cases hcl : lookupA s.clients cid with
    | none => exact ih
    | some client =>
      dsimp only
      cases hbt : client.boundTo with
      | none =>
        refine ⟨ih.relSound, ?_, ?_, ?_⟩
        · intro id c hl p hp
          rw [lookupA_eraseKey] at hl
          split at hl
          · exact absurd hl (by simp)
          · exact ih.boundSound id c hl p hp
        · exact ih.clientKeys.sublist (keys_eraseKey_sublist _ _)
        · intro id c hl
          rw [lookupA_eraseKey] at hl
          split at hl
          · exact absurd hl (by simp)
          · exact ih.idConsistent id c hl
      | some b =>
        have hcb : (cid, b) ∈ s.relations ∨ (b, cid) ∈ s.relations :=
          ih.boundSound cid client hcl b hbt
        have hrel : RelSound (eraseKey (eraseKey s.relations cid) b) :=
          (ih.relSound.filter _).filter _
        have hmemR : ∀ x y : String, (x, y) ∈ eraseKey (eraseKey s.relations cid) b ↔
            (x, y) ∈ s.relations ∧ x ≠ cid ∧ x ≠ b := by
          intro x y
          rw [mem_eraseKey, mem_eraseKey]
          dsimp only
          constructor
          · rintro ⟨⟨h1, h2⟩, h3⟩
            exact ⟨h1, h2, h3⟩
          · rintro ⟨h1, h2, h3⟩
            exact ⟨⟨h1, h2⟩, h3⟩
        cases hpl : lookupA s.clients b with
        | none =>
          simp only [hpl]
          refine ⟨hrel, ?_, ?_, ?_⟩
          · intro id c hl p hp
            rw [lookupA_eraseKey] at hl
            split at hl
            · exact absurd hl (by simp)
            · rename_i hidc
              have hidb : id ≠ b := by
                intro hid
                rw [hid, hpl] at hl
                exact absurd hl (by simp)
              rcases ih.boundSound id c hl p hp with hm | hm
              · exact Or.inl ((hmemR id p).mpr ⟨hm, hidc, hidb⟩)
              · right
                rw [hmemR]
                refine ⟨hm, ?_, ?_⟩
                · intro hpc
                  subst hpc
                  rcases hcb with hx | hx
                  · rcases relSound_cases ih.relSound hm hx with he | he
                    · injection he with e1 e2
                      exact hidb e2
                    · exact he.1 rfl
                  · rcases relSound_cases ih.relSound hm hx with he | he
                    · injection he with e1 e2
                      exact hidc e2
                    · exact he.2.2.1 rfl
                · intro hpb
                  subst hpb
                  rcases hcb with hx | hx
                  · rcases relSound_cases ih.relSound hm hx with he | he
                    · injection he with e1 e2
                      exact hidb (e2.symm ▸ e1.symm ▸ rfl)
                    · exact he.2.2.1 rfl
                  · rcases relSound_cases ih.relSound hm hx with he | he
                    · injection he with e1 e2
                      exact hidc e2
                    · exact he.1 rfl
          · exact ih.clientKeys.sublist (keys_eraseKey_sublist _ _)
          · intro id c hl
            rw [lookupA_eraseKey] at hl
            split at hl
            · exact absurd hl (by simp)
            · exact ih.idConsistent id c hl
        | some partner =>
          simp only [hpl]
          refine ⟨hrel, ?_, ?_, ?_⟩
          · intro id c hl p hp
            rw [lookupA_eraseKey] at hl
            split at hl
            · exact absurd hl (by simp)
            · rename_i hidc
              rw [lookupA_updateA] at hl
              by_cases hidb : b = id
              · rw [if_pos hidb, Option.map_eq_some'] at hl
                obtain ⟨w, hw, hwc⟩ := hl
                subst hwc
                simp at hp
              · rw [if_neg hidb] at hl
                have hidb' : id ≠ b := fun hid => hidb hid.symm
                rcases ih.boundSound id c hl p hp with hm | hm
                · exact Or.inl ((hmemR id p).mpr ⟨hm, hidc, hidb'⟩)
                · right
                  rw [hmemR]
                  refine ⟨hm, ?_, ?_⟩
                  · intro hpc
                    subst hpc
                    rcases hcb with hx | hx
                    · rcases relSound_cases ih.relSound hm hx with he | he
                      · injection he with e1 e2
                        exact hidb' e2
                      · exact he.1 rfl
                    · rcases relSound_cases ih.relSound hm hx with he | he
                      · injection he with e1 e2
                        exact hidc e2
                      · exact he.2.2.1 rfl
                  · intro hpb
                    subst hpb
                    rcases hcb with hx | hx
                    · rcases relSound_cases ih.relSound hm hx with he | he
                      · injection he with e1 e2
                        exact hidb' (e2.symm ▸ e1.symm ▸ rfl)
                      · exact he.2.2.1 rfl
                    · rcases relSound_cases ih.relSound hm hx with he | he
                      · injection he with e1 e2
                        exact hidc e2
                      · exact he.1 rfl
          · exact (ih.clientKeys.sublist
              ((keys_updateA s.clients b _) ▸ keys_eraseKey_sublist _ _))
          · intro id c hl
            rw [lookupA_eraseKey] at hl
            split at hl
            · exact absurd hl (by simp)
            · rw [lookupA_updateA] at hl
              by_cases hidb : b = id
              · rw [if_pos hidb, Option.map_eq_some'] at hl
                obtain ⟨w, hw, hwc⟩ := hl
                subst hwc
                exact ih.idConsistent id w hw
              · rw [if_neg hidb] at hl
                exact ih.idConsistent id c hl

/-! ## Claim C1: the pairing relation and bind failures -/

/--
C1 (amended): in every reachable bridge state the pairing relation is a
partial bijection up to self-pairings — no id is the source of two
pairings, no id is the target of two pairings, and an id that is both a
source and a target can only be self-paired (`bind(c, c)` is accepted, so
an id may appear as both the source and the target of one self-pairing) —
and a bind request naming an id that is already a pairing source or target
fails with `400` sent to the initiator only, leaving the state unchanged,
while a bind naming an unknown id fails with `401` to the initiator only,
also leaving the state unchanged.
-/
theorem c1_amended_pairing_partial_bijection (st : WSState) (h : WSReachable st) :
    ((∀ c a₁ a₂, (c, a₁) ∈ st.relations → (c, a₂) ∈ st.relations → a₁ = a₂) ∧
      (∀ c₁ c₂ a, (c₁, a) ∈ st.relations → (c₂, a) ∈ st.relations → c₁ = c₂) ∧
      (∀ c a c', (c, a) ∈ st.relations → (c', c) ∈ st.relations → c' = c ∧ a = c)) ∧
    (∀ sender sc d, lookupA st.clients sender = some sc → sc.wsOpen = true →
      d.message = "DGLAB" → d.clientId ≠ "" → d.targetId ≠ "" →
      (((lookupA st.clients d.clientId).isNone ∨ (lookupA st.clients d.targetId).isNone) →
        handleBind st sender d =
          ([(sender, ⟨"bind", d.clientId, d.targetId, "401"⟩)], st)) ∧
      ((lookupA st.clients d.clientId).isSome → (lookupA st.clients d.targetId).isSome →
        (hasKey st.relations d.clientId = true ∨ hasVal st.relations d.clientId = true ∨
          hasKey st.relations d.targetId = true ∨ hasVal st.relations d.targetId = true) →
        handleBind st sender d =
          ([(sender, ⟨"bind", d.clientId, d.targetId, "400"⟩)], st))) := by
  have inv := wsreachable_inv h
  constructor
  · refine ⟨?_, ?_, ?_⟩
    · intro c a₁ a₂ h1 h2
      rcases relSound_cases inv.relSound h1 h2 with he | he
      · exact congrArg Prod.snd he
      · exact absurd rfl he.1
    · intro c₁ c₂ a h1 h2
      rcases relSound_cases inv.relSound h1 h2 with he | he
      · exact congrArg Prod.fst he
      · exact absurd rfl he.2.1
    · intro c a c' h1 h2
      rcases relSound_cases inv.relSound h1 h2 with he | he
      · exact ⟨(congrArg Prod.fst he).symm, congrArg Prod.snd he⟩
      · exact absurd rfl he.2.2.1
  · intro sender sc d hsc hopen hm hc ht
    have hid : sc.id = sender := inv.idConsistent sender sc hsc
    constructor
    · intro hnone
      unfold handleBind
      rw [hsc]
      dsimp only
      rw [if_pos ⟨hm, hc, ht⟩, if_pos hnone]
      unfold sendTo
      rw [if_pos hopen, hid]
    · intro hs1 hs2 halready
      unfold handleBind
      rw [hsc]
      dsimp only
      rw [if_pos ⟨hm, hc, ht⟩]
      rw [if_neg ?hne]
      case hne =>
        rintro (hh | hh)
        · rw [Option.isNone_iff_eq_none] at hh
          rw [hh] at hs1
          simp at hs1
        · rw [Option.isNone_iff_eq_none] at hh
          rw [hh] at hs2
          simp at hs2
      rw [if_pos ?hyes]
      case hyes =>
        rcases halready with hh | hh | hh | hh
        · exact Or.inl hh
        · exact Or.inr (Or.inl hh)
        · exact Or.inr (Or.inr (Or.inl hh))
        · exact Or.inr (Or.inr (Or.inr hh))
      unfold sendTo
      rw [if_pos hopen, hid]

/-- The self-bind state: one connection that binds itself to itself. -/
def c1SelfBindState : WSState :=
  (handleBind (acceptConn ⟨[], []⟩ "c").2 "c"
    ⟨"bind", "c", "c", "DGLAB"⟩).2

/--
C1 counterexample: a reachable state in which the id `"c"` appears both as
the source and as the target of a pairing — a client may name itself as
both controller and app in a `DGLAB` bind request, which the existence and
already-bound checks do not reject — refuting the claim that no id ever
appears as both a source and a target.
-/
theorem c1_counterexample_self_bind :
    WSReachable c1SelfBindState ∧
    ("c", "c") ∈ c1SelfBindState.relations ∧
    hasKey c1SelfBindState.relations "c" = true ∧
    hasVal c1SelfBindState.relations "c" = true := by
  refine ⟨?_, by with_unfolding_all decide, by with_unfolding_all decide,
    by with_unfolding_all decide⟩
  exact WSReachable.bind _ "c" _ (WSReachable.accept _ "c" WSReachable.init (by decide))

/-- A reachable state with two connections bound as a controller/app pair. -/
def c1DemoState : WSState :=
  (handleBind (acceptConn (acceptConn ⟨[], []⟩ "c").2 "a").2 "c"
    ⟨"bind", "c", "a", "DGLAB"⟩).2

theorem c1DemoState_reachable : WSReachable c1DemoState :=
  WSReachable.bind _ "c" _
    (WSReachable.accept _ "a" (WSReachable.accept _ "c" WSReachable.init (by decide))
      (by with_unfolding_all decide))

/-- C1 witness: binding an already-bound pair again yields `400` to the
initiator only, and binding an unknown id yields `401` to the initiator
only, both leaving the state unchanged. -/
theorem c1_amended_pairing_partial_bijection_witness :
    handleBind c1DemoState "c" ⟨"bind", "c", "a", "DGLAB"⟩ =
      ([("c", ⟨"bind", "c", "a", "400"⟩)], c1DemoState) ∧
    handleBind c1DemoState "c" ⟨"bind", "zz", "a", "DGLAB"⟩ =
      ([("c", ⟨"bind", "zz", "a", "401"⟩)], c1DemoState) :=
  ⟨((c1_amended_pairing_partial_bijection c1DemoState c1DemoState_reachable).2
        "c" ⟨"c", .controller, some "a", true⟩ ⟨"bind", "c", "a", "DGLAB"⟩
        (by with_unfolding_all decide) rfl rfl (by decide) (by decide)).2
      (by with_unfolding_all decide) (by with_unfolding_all decide)
      (by with_unfolding_all decide),
    ((c1_amended_pairing_partial_bijection c1DemoState c1DemoState_reachable).2
        "c" ⟨"c", .controller, some "a", true⟩ ⟨"bind", "zz", "a", "DGLAB"⟩
        (by with_unfolding_all decide) rfl rfl (by decide) (by decide)).1
      (by with_unfolding_all decide)⟩

/-! ## Claim C2: frame routing -/

/--
C2 (amended): in every reachable bridge state, a routed frame from a sender
with no recorded partner is dropped silently (no `402` or any other reply
is sent); a frame from a sender whose recorded partner id is missing from
the endpoint set produces a `"404"` reply to the sender only; and a frame
whose partner endpoint exists with a live transport is forwarded to the
partner verbatim, unchanged.
-/
theorem c2_amended_routing (st : WSState) (h : WSReachable st) (sender : String)
    (d : WireMsg) (ci : ClientInfo) (hci : lookupA st.clients sender = some ci) :
    (ci.boundTo = none → forwardMessage st sender d = []) ∧
    (∀ p, ci.boundTo = some p → ci.wsOpen = true → lookupA st.clients p = none →
      forwardMessage st sender d =
        [(sender, ⟨"msg", d.clientId, d.targetId, "404"⟩)]) ∧
    (∀ p pc, ci.boundTo = some p → lookupA st.clients p = some pc → pc.wsOpen = true →
      forwardMessage st sender d = [(p, d)]) := by
  have inv := wsreachable_inv h
  have hid : ci.id = sender := inv.idConsistent sender ci hci
  refine ⟨?_, ?_, ?_⟩
  · intro hbt
    unfold forwardMessage
    rw [hci]
    dsimp only
    rw [hbt]
  · intro p hbt hopen hnone
    have hbound := inv.boundSound sender ci hci p hbt
    unfold forwardMessage
    rw [hci]
    dsimp only
    rw [hbt]
    dsimp only
    cases hrel : lookupA st.relations sender with
    | some v =>
      dsimp only
      rw [hnone]
      simp [sendTo, hopen, hid]
    | none =>
      have hmem : (p, sender) ∈ st.relations := by
        rcases hbound with hm | hm
        · exact absurd hm (lookupA_eq_none_iff.mp hrel p)
        · exact hm
      have hfind : (st.relations.find? (fun q => q.2 = sender)).isSome = true := by
        rw [List.find?_isSome]
        exact ⟨(p, sender), hmem, by simp⟩
      obtain ⟨q, hq⟩ := Option.isSome_iff_exists.mp hfind
      rw [hq]
      rw [hnone]
      simp [sendTo, hopen, hid]
  · intro p pc hbt hpc hpopen
    have hbound := inv.boundSound sender ci hci p hbt
    have hpid : pc.id = p := inv.idConsistent p pc hpc
    unfold forwardMessage
    rw [hci]
    dsimp only
    rw [hbt]
    dsimp only
    cases hrel : lookupA st.relations sender with
    | some v =>
      dsimp only
      rw [hpc]
      simp [sendTo, hpopen, hpid]
    | none =>
      have hmem : (p, sender) ∈ st.relations := by
        rcases hbound with hm | hm
        · exact absurd hm (lookupA_eq_none_iff.mp hrel p)
        · exact hm
      have hfind : (st.relations.find? (fun q => q.2 = sender)).isSome = true := by
        rw [List.find?_isSome]
        exact ⟨(p, sender), hmem, by simp⟩
      obtain ⟨q, hq⟩ := Option.isSome_iff_exists.mp hfind
      rw [hq]
      rw [hpc]
      simp [sendTo, hpopen, hpid]

/--
C2 counterexample: a reachable state with a single fresh connection; a
routed frame from it is dropped with no reply at all, although the claim
says the bridge replies with `"402"` when the sender has no bound partner.
-/
theorem c2_counterexample_silent_drop :
    WSReachable (acceptConn ⟨[], []⟩ "c").2 ∧
    (lookupA (acceptConn ⟨[], []⟩ "c").2.clients "c").map (fun c => c.boundTo) =
      some none ∧
    forwardMessage (acceptConn ⟨[], []⟩ "c").2 "c" ⟨"msg", "c", "", "x"⟩ = [] := by
  refine ⟨?_, by with_unfolding_all decide, by with_unfolding_all decide⟩
  exact WSReachable.accept _ "c" WSReachable.init (by decide)

/-- A second copy of the bound demo state for routing demonstrations. -/
def c2DemoState : WSState :=
  (handleBind (acceptConn (acceptConn ⟨[], []⟩ "c").2 "a").2 "c"
    ⟨"bind", "c", "a", "DGLAB"⟩).2

theorem c2DemoState_reachable : WSReachable c2DemoState :=
  WSReachable.bind _ "c" _
    (WSReachable.accept _ "a" (WSReachable.accept _ "c" WSReachable.init (by decide))
      (by with_unfolding_all decide))

/-- C2 witness: a frame routed across the bound pair is delivered to the
partner verbatim. -/
theorem c2_amended_routing_witness :
    forwardMessage c2DemoState "c" ⟨"msg", "c", "a", "pulse-A:[]"⟩ =
      [("a", ⟨"msg", "c", "a", "pulse-A:[]"⟩)] :=
  (c2_amended_routing c2DemoState c2DemoState_reachable "c"
      ⟨"msg", "c", "a", "pulse-A:[]"⟩ ⟨"c", .controller, some "a", true⟩
      (by with_unfolding_all decide)).2.2 "a" ⟨"a", .app, some "c", true⟩ rfl
    (by with_unfolding_all decide) rfl

/-! ## Claim C10: every synthesised frame is well-formed -/

/-- Value of a lowercase hex digit character. -/
def hexVal (c : Char) : ℕ :=
  if 97 ≤ c.toNat then c.toNat - 87 else c.toNat - 48

/-- Lowercase hexadecimal character test. -/
def isLowerHexC (c : Char) : Bool :=
  isDigitC c || ('a' ≤ c && c ≤ 'f')

/-- The `i`-th byte (pair of hex characters) of a frame string. -/
def decodeByte (f : String) (i : ℕ) : ℕ :=
  16 * hexVal ((f.data.get? (2 * i)).getD '0') + hexVal ((f.data.get? (2 * i + 1)).getD '0')

/-- Everything claim C10 asserts about one device frame: exactly 16
lowercase hex characters, the first 4 bytes in the frequency range 10-240,
the last 4 bytes in the strength range 0-100, and acceptance by the
validator. -/
def WellFormedFrame (f : String) : Prop :=
  f.data.length = 16 ∧ (∀ c ∈ f.data, isLowerHexC c = true) ∧
    (∀ i, i < 4 → 10 ≤ decodeByte f i ∧ decodeByte f i ≤ 240) ∧
    (∀ i, 4 ≤ i → i < 8 → decodeByte f i ≤ 100) ∧
    isValidHexWaveform f = true

theorem hexVal_hexDigit {d : ℕ} (h : d < 16) : hexVal (hexDigit d) = d := by
  interval_cases d <;> decide

theorem isLowerHexC_hexDigit {d : ℕ} (h : d < 16) : isLowerHexC (hexDigit d) = true := by
  interval_cases d <;> decide

theorem isLowerHexC_valid {c : Char} (h : isLowerHexC c = true) :
    (isDigitC c || ('a' ≤ c && c ≤ 'f') || ('A' ≤ c && c ≤ 'F')) = true := by
  unfold isLowerHexC at h
  rcases Bool.or_eq_true_iff.mp h with h | h <;> simp [h]

/-- The shape of one packed frame, with bounded byte functions. -/
theorem hexFrame_props (A B : ℕ → ℕ)
    (hA : ∀ k, k < 4 → 10 ≤ A k ∧ A k ≤ 240) (hB : ∀ k, k < 4 → B k ≤ 100) :
    WellFormedFrame (String.mk
      (((List.range 4).flatMap fun k => toHex2 (A k)) ++
        ((List.range 4).flatMap fun k => toHex2 (B k)))) := by
  have hA0 := hA 0 (by omega); have hA1 := hA 1 (by omega)
  have hA2 := hA 2 (by omega); have hA3 := hA 3 (by omega)
  have hB0 := hB 0 (by omega); have hB1 := hB 1 (by omega)
  have hB2 := hB 2 (by omega); have hB3 := hB 3 (by omega)
  have hr : List.range 4 = [0, 1, 2, 3] := rfl
  rw [hr]
  simp only [List.flatMap_cons, List.flatMap_nil, toHex2, List.append_nil]
  have hlist : ([hexDigit (A 0 / 16), hexDigit (A 0 % 16)] ++
      ([hexDigit (A 1 / 16), hexDigit (A 1 % 16)] ++
        ([hexDigit (A 2 / 16), hexDigit (A 2 % 16)] ++
          [hexDigit (A 3 / 16), hexDigit (A 3 % 16)]))) ++
      ([hexDigit (B 0 / 16), hexDigit (B 0 % 16)] ++
        ([hexDigit (B 1 / 16), hexDigit (B 1 % 16)] ++
          ([hexDigit (B 2 / 16), hexDigit (B 2 % 16)] ++
            [hexDigit (B 3 / 16), hexDigit (B 3 % 16)]))) =
      [hexDigit (A 0 / 16), hexDigit (A 0 % 16), hexDigit (A 1 / 16), hexDigit (A 1 % 16),
       hexDigit (A 2 / 16), hexDigit (A 2 % 16), hexDigit (A 3 / 16), hexDigit (A 3 % 16),
       hexDigit (B 0 / 16), hexDigit (B 0 % 16), hexDigit (B 1 / 16), hexDigit (B 1 % 16),
       hexDigit (B 2 / 16), hexDigit (B 2 % 16), hexDigit (B 3 / 16), hexDigit (B 3 % 16)] := by
    simp
  rw [hlist]
  refine ⟨rfl, ?_, ?_, ?_, ?_⟩
  · intro c hc
    simp only [List.mem_cons, List.not_mem_nil, or_false] at hc
    rcases hc with rfl | rfl | rfl | rfl | rfl | rfl | rfl | rfl | rfl | rfl | rfl | rfl |
      rfl | rfl | rfl | rfl <;>
      exact isLowerHexC_hexDigit (by omega)
  · intro i hi
    interval_cases i <;>
      · simp only [decodeByte, List.get?]
        rw [Option.getD_some, Option.getD_some,
          hexVal_hexDigit (by omega), hexVal_hexDigit (by omega)]
        omega
  · intro i hi4 hi8
    interval_cases i <;>
      · simp only [decodeByte, List.get?]
        rw [Option.getD_some, Option.getD_some,
          hexVal_hexDigit (by omega), hexVal_hexDigit (by omega)]
        omega
  · unfold isValidHexWaveform
    rw [Bool.and_eq_true]
    constructor
    · rfl
    · rw [List.all_eq_true]
      intro c hc
      simp only [List.mem_cons, List.not_mem_nil, or_false] at hc
      rcases hc with rfl | rfl | rfl | rfl | rfl | rfl | rfl | rfl | rfl | rfl | rfl | rfl |
        rfl | rfl | rfl | rfl <;>
        exact isLowerHexC_valid (isLowerHexC_hexDigit (by omega))

/-- Every frame packed from bounded sub-sample lists is well-formed. -/
theorem mem_packFrames_wellformed {fs : List ℤ} {ss : List ℕ}
    (hf : ∀ x ∈ fs, 10 ≤ x ∧ x ≤ 240) (hs : ∀ y ∈ ss, y ≤ 100) :
    ∀ f ∈ packFrames fs ss, WellFormedFrame f := by
  induction fs, ss using packFrames.induct with
  | case1 ss => simp [packFrames]
  | case2 ss f rest ih =>
    intro fr hfr
    rw [packFrames] at hfr
    rcases List.mem_cons.mp hfr with rfl | hfr
    · apply hexFrame_props
      · intro k _
        cases hget : (f :: rest).get? k with
        | none => simp [hget]
        | some x =>
          have hx := hf x (List.get?_mem hget)
          simp only [hget, Option.getD_some]
          omega
      · intro k _
        cases hget : ss.get? k with
        | none => simp [hget]
        | some y =>
          have hy := hs y (List.get?_mem hget)
          simp only [hget, Option.getD_some]
          exact hy
    · refine ih ?_ ?_ fr hfr
      · intro x hx
        exact hf x (List.mem_cons_of_mem _ ((rest.drop_sublist 3).mem hx))
      · intro y hy
        exact hs y ((ss.drop_sublist 4).mem hy)

theorem subSample_fst_bounds (s : WaveformSection) (dur : ℚ) (m n : ℕ) :
    10 ≤ (subSample s dur m n).1 ∧ (subSample s dur m n).1 ≤ 240 := by
  unfold subSample
  dsimp only
  split
  · exact getOutputValue_mem _
  · split
    · exact getOutputValue_mem _
    · split
      · exact getOutputValue_mem _
      · split
        · exact getOutputValue_mem _
        · exact getOutputValue_mem _

theorem subSample_snd_bounds (s : WaveformSection) (dur : ℚ) (m n : ℕ) :
    (subSample s dur m n).2 ≤ 100 := by
  unfold subSample
  dsimp only
  rw [Int.toNat_le]
  exact max_le (by norm_num) (le_trans (min_le_left _ _) (by norm_num))

/--
C10: every frame string produced by a successful parse of any waveform text
is exactly 16 lowercase hexadecimal characters; its first 4 byte pairs
decode to frequencies in [10, 240] and its last 4 byte pairs decode to
strengths in [0, 100], even when the input's shape-point strengths lie
outside 0-100 (sub-sample strengths are clamped during synthesis); every
such frame passes `isValidHexWaveform`.
-/
theorem c10_hex_frames_wellformed (data nm : String) (w : ParsedWaveform)
    (h : parseWaveform data nm = some w) :
    ∀ f ∈ w.hexWaveforms, WellFormedFrame f := by
  intro f hf
  obtain ⟨-, -, hhex⟩ := parseWaveform_some h
  rw [hhex] at hf
  unfold convertToHexWaveforms at hf
  rw [List.mem_flatMap] at hf
  obtain ⟨s, _, hfs⟩ := hf
  unfold sectionFrames at hfs
  split at hfs
  · simp at hfs
  · refine mem_packFrames_wellformed ?_ ?_ f hfs
    · intro x hx
      rw [List.mem_map] at hx
      obtain ⟨sm, hsm, rfl⟩ := hx
      unfold sectionSamples at hsm
      rw [List.mem_flatMap] at hsm
      obtain ⟨m, -, hsm⟩ := hsm
      rw [List.mem_map] at hsm
      obtain ⟨n, -, rfl⟩ := hsm
      exact subSample_fst_bounds _ _ _ _
    · intro y hy
      rw [List.mem_map] at hy
      obtain ⟨sm, hsm, rfl⟩ := hy
      unfold sectionSamples at hsm
      rw [List.mem_flatMap] at hsm
      obtain ⟨m, -, hsm⟩ := hsm
      rw [List.mem_map] at hsm
      obtain ⟨n, -, rfl⟩ := hsm
      exact subSample_snd_bounds _ _ _ _

/-- C10 witness: a parse whose input strength 150 exceeds the 0-100 range
still yields a well-formed frame (strength clamped to 100 = `64`). -/
theorem c10_hex_frames_wellformed_witness : WellFormedFrame "0a0a0a0a64646464" :=
  c10_hex_frames_wellformed "Dungeonlab+pulse:0,1,8=0,0,1,1,1/150-0" "n"
    { name := "n"
      metadata :=
        { startFrequencies := [0, 0, 0], endFrequencies := [0, 0, 0],
          durations := [1, 0, 0], frequencyModes := [1, 1, 1],
          section2Enabled := false, section3Enabled := false, playbackSpeed := 1 }
      sections := [
        { index := 0, enabled := true, startFrequency := 0, endFrequency := 0,
          duration := 1, frequencyMode := 1,
          shape := [{ shapeType := 0, strength := 150 }] }]
      rawData := "Dungeonlab+pulse:0,1,8=0,0,1,1,1/150-0"
      hexWaveforms := ["0a0a0a0a64646464"] }
    (by with_unfolding_all decide) "0a0a0a0a64646464" (by decide)

/-! ## Decimal digit printing and parsing lemmas -/

theorem digitVal_digitChar {d : ℕ} (h : d < 10) : digitVal (digitChar d) = d := by
  interval_cases d <;> decide

theorem isDigitC_digitChar {d : ℕ} (h : d < 10) : isDigitC (digitChar d) = true := by
  interval_cases d <;> decide

theorem natToChars_ne_nil (n : ℕ) : natToChars n ≠ [] := by
  rw [natToChars]
  split <;> simp

theorem natToChars_all_digits (n : ℕ) : ∀ c ∈ natToChars n, isDigitC c = true := by
  induction n using natToChars.induct with
  | case1 n h =>
    intro c hc
    rw [natToChars, dif_pos h] at hc
    simp only [List.mem_singleton] at hc
    subst hc
    exact isDigitC_digitChar h
  | case2 n h ih =>
    intro c hc
    rw [natToChars, dif_neg h] at hc
    rcases List.mem_append.mp hc with hc | hc
    · exact ih c hc
    · simp only [List.mem_singleton] at hc
      subst hc
      exact isDigitC_digitChar (Nat.mod_lt _ (by omega))

theorem foldl_digits (b : List Char) : ∀ x : ℕ,
    List.foldl (fun a c => 10 * a + digitVal c) x b = x * 10 ^ b.length + digitsVal b := by
  induction b with
  | nil => intro x; simp [digitsVal]
  | cons c t ih =>
    intro x
    rw [List.foldl_cons, ih]
    have hd : digitsVal (c :: t) = digitVal c * 10 ^ t.length + digitsVal t := by
      show List.foldl (fun a c => 10 * a + digitVal c) 0 (c :: t) = _
      rw [List.foldl_cons, ih]
      ring_nf
    rw [hd]
    simp only [List.length_cons]
    ring

theorem digitsVal_append (a b : List Char) :
    digitsVal (a ++ b) = digitsVal a * 10 ^ b.length + digitsVal b := by
  unfold digitsVal
  rw [List.foldl_append]
  exact foldl_digits b _

theorem digitsVal_padZeros (k : ℕ) (l : List Char) :
    digitsVal (padZeros k l) = digitsVal l := by
  unfold padZeros
  rw [digitsVal_append]
  have hz : digitVal '0' = 0 := by decide
  have hrep : ∀ j, digitsVal (List.replicate j '0') = 0 := by
    intro j
    induction j with
    | zero => rfl
    | succ j ih =>
      rw [List.replicate_succ]
      unfold digitsVal at ih ⊢
      rw [List.foldl_cons, hz]
      simpa using ih
  rw [hrep]
  simp

theorem digitsVal_natToChars (n : ℕ) : digitsVal (natToChars n) = n := by
  induction n using natToChars.induct with
  | case1 n h =>
    rw [natToChars, dif_pos h]
    show 10 * 0 + digitVal (digitChar n) = n
    rw [digitVal_digitChar h]
    omega
  | case2 n h ih =>
    rw [natToChars, dif_neg h, digitsVal_append, ih]
    have h1 : digitsVal [digitChar (n % 10)] = n % 10 := by
      show 10 * 0 + digitVal (digitChar (n % 10)) = n % 10
      rw [digitVal_digitChar (Nat.mod_lt _ (by omega))]
      omega
    rw [h1]
    simp only [List.length_singleton, pow_one]
    omega

/-- An ASCII digit is none of the structural characters of the waveform
grammar and is not whitespace. -/
theorem digit_char_props {c : Char} (h : isDigitC c = true) :
    c ≠ '+' ∧ c ≠ '.' ∧ c ≠ '-' ∧ c ≠ ',' ∧ c ≠ '/' ∧ c ≠ '=' ∧ wsp c = false := by
  refine ⟨?_, ?_, ?_, ?_, ?_, ?_, ?_⟩
  · intro hc; rw [hc] at h; exact absurd h (by decide)
  · intro hc; rw [hc] at h; exact absurd h (by decide)
  · intro hc; rw [hc] at h; exact absurd h (by decide)
  · intro hc; rw [hc] at h; exact absurd h (by decide)
  · intro hc; rw [hc] at h; exact absurd h (by decide)
  · intro hc; rw [hc] at h; exact absurd h (by decide)
  · have h1 : c ≠ ' ' := by intro hc; rw [hc] at h; exact absurd h (by decide)
    have h2 : c ≠ '\t' := by intro hc; rw [hc] at h; exact absurd h (by decide)
    have h3 : c ≠ '\n' := by intro hc; rw [hc] at h; exact absurd h (by decide)
    have h4 : c ≠ '\r' := by intro hc; rw [hc] at h; exact absurd h (by decide)
    simp [wsp, h1, h2, h3, h4]

theorem trimL_eq_self {l : List Char} (h : ∀ c ∈ l, wsp c = false) : trimL l = l := by
  have hdw : ∀ m : List Char, (∀ c ∈ m, wsp c = false) → m.dropWhile wsp = m := by
    intro m hm
    cases m with
    | nil => rfl
    | cons c t =>
      rw [List.dropWhile_cons, if_neg (by simp [hm c (List.mem_cons_self c t)])]
  unfold trimL
  rw [hdw l h, hdw l.reverse (fun c hc => h c (List.mem_reverse.mp hc)), List.reverse_reverse]

/-! ## Separator split and join lemmas -/

theorem splitC_no_sep {c : Char} {x : List Char} (h : c ∉ x) : splitC c x = [x] := by
  induction x with
  | nil => rfl
  | cons a t ih =>
    have ha : ¬ a = c := fun hh => h (by rw [← hh]; exact List.mem_cons_self a t)
    have ht : c ∉ t := fun hh => h (List.mem_cons_of_mem _ hh)
    rw [splitC, if_neg ha, ih ht]

theorem splitC_append_sep {c : Char} {x y : List Char} (h : c ∉ x) :
    splitC c (x ++ c :: y) = x :: splitC c y := by
  induction x with
  | nil =>
    rw [List.nil_append, splitC, if_pos rfl]
  | cons a t ih =>
    have ha : ¬ a = c := fun hh => h (by rw [← hh]; exact List.mem_cons_self a t)
    have ht : c ∉ t := fun hh => h (List.mem_cons_of_mem _ hh)
    rw [List.cons_append, splitC, if_neg ha, ih ht]

theorem splitC_joinSep {c : Char} {parts : List (List Char)} (hne : parts ≠ [])
    (h : ∀ x ∈ parts, c ∉ x) : splitC c (joinSep [c] parts) = parts := by
  induction parts with
  | nil => exact absurd rfl hne
  | cons x rest ih =>
    cases rest with
    | nil => exact splitC_no_sep (h x (List.mem_cons_self _ _))
    | cons y t =>
      show splitC c (x ++ [c] ++ joinSep [c] (y :: t)) = _
      rw [List.append_assoc, List.singleton_append,
        splitC_append_sep (h x (List.mem_cons_self _ _)),
        ih (by simp) (fun z hz => h z (List.mem_cons_of_mem _ hz))]

theorem lstartsWith_append_self (p z : List Char) : lstartsWith (p ++ z) p = true := by
  induction p with
  | nil => cases z <;> rfl
  | cons a t ih =>
    rw [List.cons_append]
    show (a = a && lstartsWith (t ++ z) t) = true
    rw [ih]
    simp

theorem breakFirst_append_sep {c : Char} {a b : List Char} (h : c ∉ a) :
    breakFirst c (a ++ c :: b) = some (a, b) := by
  induction a with
  | nil => rw [List.nil_append, breakFirst, if_pos rfl]
  | cons x t ih =>
    have hx : ¬ x = c := fun hh => h (by rw [← hh]; exact List.mem_cons_self x t)
    have ht : c ∉ t := fun hh => h (List.mem_cons_of_mem _ hh)
    rw [List.cons_append, breakFirst, if_neg hx, ih ht]
    rfl

theorem splitSec_no_plus {x : List Char} (h : ('+' : Char) ∉ x) : splitSec x = [x] := by
  induction x with
  | nil => rw [splitSec]
  | cons a t ih =>
    have ha : ¬ a = '+' := fun hh => h (by rw [← hh]; exact List.mem_cons_self a t)
    have ht : ('+' : Char) ∉ t := fun hh => h (List.mem_cons_of_mem _ hh)
    have hlsw : lstartsWith (a :: t) sepChars = false := by
      show (a = '+' && lstartsWith t ['s', 'e', 'c', 't', 'i', 'o', 'n', '+']) = false
      simp [ha]
    rw [splitSec, if_neg (by simp [hlsw]), ih ht]

theorem splitSec_append_sep {x y : List Char} (h : ('+' : Char) ∉ x) :
    splitSec (x ++ sepChars ++ y) = x :: splitSec y := by
  induction x with
  | nil =>
    rw [List.nil_append]
    show splitSec ('+' :: (['s', 'e', 'c', 't', 'i', 'o', 'n', '+'] ++ y)) = _
    rw [splitSec]
    rw [if_pos (by exact lstartsWith_append_self sepChars y)]
    have hdrop : List.drop 9 ('+' :: (['s', 'e', 'c', 't', 'i', 'o', 'n', '+'] ++ y)) = y := by
      simp
    rw [hdrop]
  | cons a t ih =>
    have ha : ¬ a = '+' := fun hh => h (by rw [← hh]; exact List.mem_cons_self a t)
    have ht : ('+' : Char) ∉ t := fun hh => h (List.mem_cons_of_mem _ hh)
    show splitSec (a :: (t ++ sepChars ++ y)) = _
    rw [splitSec]
    rw [if_neg ?hne]
    case hne =>
      show ¬ (a = '+' && lstartsWith (t ++ sepChars ++ y) ['s', 'e', 'c', 't', 'i', 'o', 'n', '+']) = true
      simp [ha]
    rw [ih ht]

theorem splitSec_joinSep {parts : List (List Char)} (hne : parts ≠ [])
    (h : ∀ x ∈ parts, ('+' : Char) ∉ x) : splitSec (joinSep sepChars parts) = parts := by
  induction parts with
  | nil => exact absurd rfl hne
  | cons x rest ih =>
    cases rest with
    | nil => exact splitSec_no_plus (h x (List.mem_cons_self _ _))
    | cons y t =>
      show splitSec (x ++ sepChars ++ joinSep sepChars (y :: t)) = _
      rw [splitSec_append_sep (h x (List.mem_cons_self _ _)),
        ih (by simp) (fun z hz => h z (List.mem_cons_of_mem _ hz))]

theorem mem_joinSep {c : Char} {sep : List Char} {parts : List (List Char)}
    (hsep : c ∉ sep) (h : ∀ x ∈ parts, c ∉ x) : c ∉ joinSep sep parts := by
  induction parts with
  | nil => simp [joinSep]
  | cons x rest ih =>
    cases rest with
    | nil => exact h x (List.mem_cons_self _ _)
    | cons y t =>
      show c ∉ x ++ sep ++ joinSep sep (y :: t)
      intro hc
      rcases List.mem_append.mp hc with hc | hc
      · rcases List.mem_append.mp hc with hc | hc
        · exact h x (List.mem_cons_self _ _) hc
        · exact hsep hc
      · exact ih (fun z hz => h z (List.mem_cons_of_mem _ hz)) hc

/-! ## The printing scale makes the number an integer -/

theorem den_dvd_pow_of_scale {q : ℚ} {K : ℕ} (hK : (q * 10 ^ K).den = 1) :
    q.den ∣ 10 ^ K := by
  have h1 : ((q * 10 ^ K).num : ℚ) = q * 10 ^ K := (Rat.den_eq_one_iff _).mp hK
  have hdi : q = Rat.divInt (q * 10 ^ K).num ((10 : ℤ) ^ K) := by
    rw [Rat.divInt_eq_div]
    have hpow : ((10 : ℚ) ^ K) ≠ 0 := by positivity
    rw [h1]
    push_cast
    field_simp
  have hdvd := Rat.den_dvd (q * 10 ^ K).num ((10 : ℤ) ^ K)
  rw [← hdi] at hdvd
  exact_mod_cast hdvd

theorem den_lt_of_mul_ten {q : ℚ} (hd : q.den ≠ 1) (hg : GoodQ q) :
    (q * 10).den < q.den := by
  obtain ⟨K, hK⟩ := hg
  have hdvd : q.den ∣ 10 ^ K := den_dvd_pow_of_scale hK
  have hnc : ¬ Nat.Coprime q.den 10 := by
    intro hco
    exact hd ((hco.pow_right K).eq_one_of_dvd hdvd)
  have hg2 : 2 ≤ Nat.gcd q.den 10 := by
    have hg0 : Nat.gcd q.den 10 ≠ 0 := by
      intro h0
      have h10 : (10 : ℕ) = 0 := Nat.eq_zero_of_gcd_eq_zero_right h0
      omega
    have hg1 : Nat.gcd q.den 10 ≠ 1 := hnc
    omega
  have hmul := Rat.mul_den q 10
  have h10d : (10 : ℚ).den = 1 := rfl
  have h10n : (10 : ℚ).num = 10 := rfl
  rw [h10d, h10n, Nat.mul_one] at hmul
  have hgG : Nat.gcd q.den 10 ∣ Nat.gcd (q.num * 10).natAbs q.den := by
    apply Nat.dvd_gcd
    · refine dvd_trans (Nat.gcd_dvd_right q.den 10) ⟨q.num.natAbs, ?_⟩
      rw [Int.natAbs_mul]
      simp [Nat.mul_comm]
    · exact Nat.gcd_dvd_left _ _
  have hGpos : 0 < Nat.gcd (q.num * 10).natAbs q.den := by
    apply Nat.gcd_pos_of_pos_right
    exact q.den_pos
  have hG2 : 2 ≤ Nat.gcd (q.num * 10).natAbs q.den :=
    le_trans hg2 (Nat.le_of_dvd hGpos hgG)
  rw [hmul]
  exact Nat.div_lt_self q.den_pos hG2

theorem findScaleF_den_one : ∀ (fuel : ℕ) (q : ℚ), GoodQ q → q.den ≤ fuel →
    (q * 10 ^ findScaleF fuel q).den = 1 := by
  intro fuel
  induction fuel with
  | zero =>
    intro q _ hle
    have := q.den_pos
    omega
  | succ n ih =>
    intro q hg hle
    rw [findScaleF]
    split
    · rename_i h1
      rw [pow_zero, mul_one]
      exact h1
    · rename_i h1
      have hg' : GoodQ (q * 10) := by
        obtain ⟨K, hK⟩ := hg
        cases K with
        | zero =>
          rw [pow_zero, mul_one] at hK
          exact absurd hK h1
        | succ K =>
          refine ⟨K, ?_⟩
          have hsw : q * 10 * 10 ^ K = q * 10 ^ (K + 1) := by ring
          rw [hsw]
          exact hK
      have hlt : (q * 10).den < q.den := den_lt_of_mul_ten h1 hg
      have hrec := ih (q * 10) hg' (by omega)
      have heq : q * 10 ^ (1 + findScaleF n (q * 10)) =
          q * 10 * 10 ^ findScaleF n (q * 10) := by ring
      rw [heq]
      exact hrec

theorem findScale_den_one (q : ℚ) (hg : GoodQ q) :
    (q * 10 ^ findScale q).den = 1 :=
  findScaleF_den_one q.den q hg le_rfl

/-! ## Re-parsing a printed number -/

theorem padZeros_all_digits {l : List Char} (k : ℕ) (h : ∀ c ∈ l, isDigitC c = true) :
    ∀ c ∈ padZeros k l, isDigitC c = true := by
  intro c hc
  unfold padZeros at hc
  rcases List.mem_append.mp hc with hc | hc
  · rw [List.eq_of_mem_replicate hc]
    decide
  · exact h c hc

theorem signSplit_cons_digit {c : Char} {t : List Char} (h : isDigitC c = true) :
    signSplit (c :: t) = (1, c :: t) := by
  obtain ⟨hp, -, hm, -⟩ := digit_char_props h
  show (if c = '-' then ((-1 : ℚ), t) else if c = '+' then ((1 : ℚ), t) else (1, c :: t)) =
    (1, c :: t)
  rw [if_neg hm, if_neg hp]

theorem signSplit_neg (t : List Char) : signSplit ('-' :: t) = (-1, t) := by
  show (if ('-' : Char) = '-' then ((-1 : ℚ), t)
    else if ('-' : Char) = '+' then ((1 : ℚ), t) else (1, '-' :: t)) = (-1, t)
  rw [if_pos rfl]

theorem jsNumberCore_digits_pos {l : List Char} (hne : l ≠ [])
    (hd : ∀ c ∈ l, isDigitC c = true) :
    jsNumberCore l = some ((digitsVal l : ℚ)) := by
  obtain ⟨c, bs, rfl⟩ := List.exists_cons_of_ne_nil hne
  have hss : signSplit (c :: bs) = (1, c :: bs) :=
    signSplit_cons_digit (hd c (List.mem_cons_self _ _))
  have hsp : splitC '.' (c :: bs) = [c :: bs] :=
    splitC_no_sep (fun hmem => (digit_char_props (hd '.' hmem)).2.1 rfl)
  unfold jsNumberCore
  rw [if_neg (by simp)]
  dsimp only
  simp only [hss, hsp]
  rw [if_pos ⟨by simp, List.all_eq_true.mpr hd⟩, one_mul]

theorem jsNumberCore_digits_neg {l : List Char} (hne : l ≠ [])
    (hd : ∀ c ∈ l, isDigitC c = true) :
    jsNumberCore ('-' :: l) = some (-(digitsVal l : ℚ)) := by
  obtain ⟨c, bs, rfl⟩ := List.exists_cons_of_ne_nil hne
  have hsp : splitC '.' (c :: bs) = [c :: bs] :=
    splitC_no_sep (fun hmem => (digit_char_props (hd '.' hmem)).2.1 rfl)
  unfold jsNumberCore
  rw [if_neg (by simp)]
  dsimp only
  simp only [signSplit_neg, hsp]
  rw [if_pos ⟨by simp, List.all_eq_true.mpr hd⟩, neg_one_mul]

theorem jsNumberCore_frac_pos {a b : List Char} (hane : a ≠ [])
    (ha : ∀ c ∈ a, isDigitC c = true) (hb : ∀ c ∈ b, isDigitC c = true) :
    jsNumberCore (a ++ '.' :: b) =
      some ((digitsVal a : ℚ) + (digitsVal b : ℚ) / 10 ^ b.length) := by
  obtain ⟨c, bs, rfl⟩ := List.exists_cons_of_ne_nil hane
  have hss : signSplit ((c :: bs) ++ '.' :: b) = (1, (c :: bs) ++ '.' :: b) :=
    signSplit_cons_digit (ha c (List.mem_cons_self _ _))
  have hsp : splitC '.' ((c :: bs) ++ '.' :: b) = [c :: bs, b] := by
    rw [splitC_append_sep (fun hmem => (digit_char_props (ha '.' hmem)).2.1 rfl),
      splitC_no_sep (fun hmem => (digit_char_props (hb '.' hmem)).2.1 rfl)]
  unfold jsNumberCore
  rw [if_neg (by simp)]
  dsimp only
  simp only [hss, hsp]
  rw [if_pos ⟨Or.inl (by simp), List.all_eq_true.mpr ha, List.all_eq_true.mpr hb⟩, one_mul]

theorem jsNumberCore_frac_neg {a b : List Char} (hane : a ≠ [])
    (ha : ∀ c ∈ a, isDigitC c = true) (hb : ∀ c ∈ b, isDigitC c = true) :
    jsNumberCore ('-' :: (a ++ '.' :: b)) =
      some (-((digitsVal a : ℚ) + (digitsVal b : ℚ) / 10 ^ b.length)) := by
  obtain ⟨c, bs, rfl⟩ := List.exists_cons_of_ne_nil hane
  have hsp : splitC '.' ((c :: bs) ++ '.' :: b) = [c :: bs, b] := by
    rw [splitC_append_sep (fun hmem => (digit_char_props (ha '.' hmem)).2.1 rfl),
      splitC_no_sep (fun hmem => (digit_char_props (hb '.' hmem)).2.1 rfl)]
  unfold jsNumberCore
  rw [if_neg (by simp)]
  dsimp only
  simp only [signSplit_neg, hsp]
  rw [if_pos ⟨Or.inl (by simp), List.all_eq_true.mpr ha, List.all_eq_true.mpr hb⟩, neg_one_mul]

theorem jsNumberCore_print_core {m : ℤ} {k : ℕ} {q : ℚ} (ds : List Char)
    (hds : ds = padZeros (k + 1) (natToChars m.natAbs))
    (hq : (m : ℚ) = q * 10 ^ k) :
    jsNumberCore ((if m < 0 then ['-'] else []) ++
      (if k = 0 then ds
       else ds.take (ds.length - k) ++ '.' :: ds.drop (ds.length - k))) = some q := by
  have hdsd : ∀ c ∈ ds, isDigitC c = true := by
    rw [hds]
    exact padZeros_all_digits _ (natToChars_all_digits _)
  have hdsv : digitsVal ds = m.natAbs := by
    rw [hds, digitsVal_padZeros, digitsVal_natToChars]
  have hdslen : k + 1 ≤ ds.length := by
    rw [hds]
    unfold padZeros
    rw [List.length_append, List.length_replicate]
    omega
  have hdsne : ds ≠ [] := by
    intro hnil
    rw [hnil] at hdslen
    simp at hdslen
  have habs : ((m.natAbs : ℚ)) = |(m : ℚ)| := by
    rw [Int.cast_natAbs, Int.cast_abs]
  by_cases hk : k = 0
  · subst hk
    rw [if_pos rfl]
    have hq0 : (m : ℚ) = q := by rw [hq, pow_zero, mul_one]
    by_cases hm : m < 0
    · rw [if_pos hm, List.singleton_append, jsNumberCore_digits_neg hdsne hdsd, hdsv]
      congr 1
      rw [habs, abs_of_neg (by exact_mod_cast hm), neg_neg, hq0]
    · rw [if_neg hm, List.nil_append, jsNumberCore_digits_pos hdsne hdsd, hdsv]
      congr 1
      rw [habs, abs_of_nonneg (by exact_mod_cast not_lt.mp hm), hq0]
  · rw [if_neg hk]
    have htpos : 1 ≤ ds.length - k := by omega
    have hane : ds.take (ds.length - k) ≠ [] := by
      intro hnil
      have := congrArg List.length hnil
      rw [List.length_take] at this
      simp at this
      omega
    have hblen : (ds.drop (ds.length - k)).length = k := by
      rw [List.length_drop]
      omega
    have hsum : (digitsVal (ds.take (ds.length - k)) : ℚ) * 10 ^ k +
        (digitsVal (ds.drop (ds.length - k)) : ℚ) = ((m.natAbs : ℚ)) := by
      have hab := digitsVal_append (ds.take (ds.length - k)) (ds.drop (ds.length - k))
      rw [List.take_append_drop, hblen, hdsv] at hab
      exact_mod_cast hab.symm
    have h10 : ((10 : ℚ)) ^ k ≠ 0 := by positivity
    by_cases hm : m < 0
    · rw [if_pos hm, List.singleton_append,
        jsNumberCore_frac_neg hane (fun c hc => hdsd c (List.take_subset _ _ hc))
          (fun c hc => hdsd c (List.drop_subset _ _ hc)), hblen]
      congr 1
      have hmabs : ((m.natAbs : ℚ)) = -(q * 10 ^ k) := by
        rw [habs, abs_of_neg (by exact_mod_cast hm), hq]
      rw [hmabs] at hsum
      field_simp
      linarith [hsum]
    · rw [if_neg hm, List.nil_append,
        jsNumberCore_frac_pos hane (fun c hc => hdsd c (List.take_subset _ _ hc))
          (fun c hc => hdsd c (List.drop_subset _ _ hc)), hblen]
      congr 1
      have hmabs : ((m.natAbs : ℚ)) = q * 10 ^ k := by
        rw [habs, abs_of_nonneg (by exact_mod_cast not_lt.mp hm), hq]
      rw [hmabs] at hsum
      field_simp
      linarith [hsum]

theorem print_core_charset {m : ℤ} {k : ℕ} {ds : List Char}
    (hds : ∀ c ∈ ds, isDigitC c = true) :
    ∀ c ∈ (if m < 0 then ['-'] else []) ++
      (if k = 0 then ds
       else ds.take (ds.length - k) ++ '.' :: ds.drop (ds.length - k)),
      isDigitC c = true ∨ c = '-' ∨ c = '.' := by
  intro c hc
  rcases List.mem_append.mp hc with hc | hc
  · split at hc
    · simp only [List.mem_singleton] at hc
      exact Or.inr (Or.inl hc)
    · simp at hc
  · split at hc
    · exact Or.inl (hds c hc)
    · rcases List.mem_append.mp hc with hc | hc
      · exact Or.inl (hds c (List.take_subset _ _ hc))
      · rcases List.mem_cons.mp hc with hc | hc
        · exact Or.inr (Or.inr hc)
        · exact Or.inl (hds c (List.drop_subset _ _ hc))

theorem printNum_eq_core (q : ℚ) :
    printNum q = (if (q * 10 ^ findScale q).num < 0 then ['-'] else []) ++
      (if findScale q = 0 then
        padZeros (findScale q + 1) (natToChars (q * 10 ^ findScale q).num.natAbs)
       else
        (padZeros (findScale q + 1) (natToChars (q * 10 ^ findScale q).num.natAbs)).take
            ((padZeros (findScale q + 1) (natToChars (q * 10 ^ findScale q).num.natAbs)).length -
              findScale q) ++
          '.' ::
            (padZeros (findScale q + 1) (natToChars (q * 10 ^ findScale q).num.natAbs)).drop
              ((padZeros (findScale q + 1) (natToChars (q * 10 ^ findScale q).num.natAbs)).length -
                findScale q)) := rfl

theorem printNum_charset (q : ℚ) :
    ∀ c ∈ printNum q, isDigitC c = true ∨ c = '-' ∨ c = '.' := by
  rw [printNum_eq_core]
  exact print_core_charset (padZeros_all_digits _ (natToChars_all_digits _))

theorem jsNumber_printNum {q : ℚ} (hg : GoodQ q) : jsNumber (printNum q) = some q := by
  have hden := findScale_den_one q hg
  have htrim : trimL (printNum q) = printNum q := by
    apply trimL_eq_self
    intro c hc
    rcases printNum_charset q c hc with h | h | h
    · exact (digit_char_props h).2.2.2.2.2.2
    · rw [h]; decide
    · rw [h]; decide
  unfold jsNumber
  rw [htrim, printNum_eq_core]
  exact jsNumberCore_print_core _ rfl ((Rat.den_eq_one_iff _).mp hden)

theorem numOr_printNum {q d : ℚ} (hg : GoodQ q) (hzd : q = 0 → d = q) :
    numOr (printNum q) d = q := by
  unfold numOr
  rw [jsNumber_printNum hg]
  show (if q = 0 then d else q) = q
  by_cases h0 : q = 0
  · rw [if_pos h0, hzd h0]
  · rw [if_neg h0]

/-! ## Re-parsing an encoded section -/

/-- Header text of one section as rebuilt by `encodeWaveform`. -/
def encHeader (s : WaveformSection) : List Char :=
  joinSep [','] [printNum s.startFrequency, printNum s.endFrequency,
    printNum s.duration, printNum s.frequencyMode,
    if s.enabled then ['1'] else ['0']]

/-- Shape text of one section as rebuilt by `encodeWaveform`. -/
def encShape (s : WaveformSection) : List Char :=
  joinSep [','] (s.shape.map (fun p => toFixed2 p.strength ++ '-' :: printNum p.shapeType))

/-- The shape list as re-decoded from the encoded shape text. -/
def reShape (s : WaveformSection) : List WaveformShapePoint :=
  (splitC ',' (encShape s)).map parsePoint

/-- The section produced by re-parsing the encoding of a kept section. -/
def reSec (i : ℕ) (s : WaveformSection) : WaveformSection :=
  { index := i, enabled := true, startFrequency := s.startFrequency,
    endFrequency := s.endFrequency, duration := s.duration,
    frequencyMode := s.frequencyMode, shape := reShape s }

theorem encSection_eq (i : ℕ) (s : WaveformSection) :
    encSection i s =
      (if i = 0 then "0,1,8=".data else []) ++ encHeader s ++ '/' :: encShape s := rfl

theorem containsChar_iff {c : Char} {l : List Char} : containsChar c l = true ↔ c ∈ l := by
  unfold containsChar
  rw [List.any_eq_true]
  constructor
  · rintro ⟨x, hx, hxc⟩
    simp only [decide_eq_true_eq] at hxc
    rw [← hxc]
    exact hx
  · intro h
    exact ⟨c, h, by simp⟩

theorem printInt_charset (m : ℤ) : ∀ c ∈ printInt m, isDigitC c = true ∨ c = '-' := by
  intro c hc
  unfold printInt at hc
  rcases List.mem_append.mp hc with hc | hc
  · split at hc
    · simp only [List.mem_singleton] at hc
      exact Or.inr hc
    · simp at hc
  · exact Or.inl (natToChars_all_digits _ c hc)

theorem toFixed2_charset (m : ℤ) :
    ∀ c ∈ toFixed2 m, isDigitC c = true ∨ c = '-' ∨ c = '.' := by
  intro c hc
  unfold toFixed2 at hc
  rcases List.mem_append.mp hc with hc | hc
  · rcases printInt_charset m c hc with h | h
    · exact Or.inl h
    · exact Or.inr (Or.inl h)
  · rcases List.mem_cons.mp hc with hc | hc
    · exact Or.inr (Or.inr hc)
    · simp only [List.mem_cons, List.mem_singleton] at hc
      rcases hc with hc | hc | hc
      all_goals first
        | (rw [hc]; exact Or.inl (by decide))
        | simp at hc

theorem mem_joinSep_elim {c : Char} {sep : List Char} {parts : List (List Char)}
    (h : c ∈ joinSep sep parts) : c ∈ sep ∨ ∃ x ∈ parts, c ∈ x := by
  induction parts with
  | nil => simp [joinSep] at h
  | cons x rest ih =>
    cases rest with
    | nil => exact Or.inr ⟨x, by simp, h⟩
    | cons y t =>
      rw [show joinSep sep (x :: y :: t) = x ++ sep ++ joinSep sep (y :: t) from rfl] at h
      rcases List.mem_append.mp h with h | h
      · rcases List.mem_append.mp h with h | h
        · exact Or.inr ⟨x, by simp, h⟩
        · exact Or.inl h
      · rcases ih h with h | ⟨z, hz, hcz⟩
        · exact Or.inl h
        · exact Or.inr ⟨z, List.mem_cons_of_mem _ hz, hcz⟩

theorem encHeader_charset (s : WaveformSection) :
    ∀ c ∈ encHeader s, isDigitC c = true ∨ c = '-' ∨ c = '.' ∨ c = ',' := by
  intro c hc
  unfold encHeader at hc
  rcases mem_joinSep_elim hc with hc | ⟨x, hx, hcx⟩
  · simp only [List.mem_singleton] at hc
    exact Or.inr (Or.inr (Or.inr hc))
  · simp only [List.mem_cons, List.mem_singleton, List.not_mem_nil, or_false] at hx
    rcases hx with rfl | rfl | rfl | rfl | rfl
    · rcases printNum_charset _ c hcx with h | h | h
      · exact Or.inl h
      · exact Or.inr (Or.inl h)
      · exact Or.inr (Or.inr (Or.inl h))
    · rcases printNum_charset _ c hcx with h | h | h
      · exact Or.inl h
      · exact Or.inr (Or.inl h)
      · exact Or.inr (Or.inr (Or.inl h))
    · rcases printNum_charset _ c hcx with h | h | h
      · exact Or.inl h
      · exact Or.inr (Or.inl h)
      · exact Or.inr (Or.inr (Or.inl h))
    · rcases printNum_charset _ c hcx with h | h | h
      · exact Or.inl h
      · exact Or.inr (Or.inl h)
      · exact Or.inr (Or.inr (Or.inl h))
    · split at hcx
      · simp only [List.mem_singleton] at hcx
        rw [hcx]
        exact Or.inl (by decide)
      · simp only [List.mem_singleton] at hcx
        rw [hcx]
        exact Or.inl (by decide)

theorem encShape_charset (s : WaveformSection) :
    ∀ c ∈ encShape s, isDigitC c = true ∨ c = '-' ∨ c = '.' ∨ c = ',' := by
  intro c hc
  unfold encShape at hc
  rcases mem_joinSep_elim hc with hc | ⟨x, hx, hcx⟩
  · simp only [List.mem_singleton] at hc
    exact Or.inr (Or.inr (Or.inr hc))
  · simp only [List.mem_map] at hx
    obtain ⟨p, -, rfl⟩ := hx
    rcases List.mem_append.mp hcx with hc2 | hc2
    · rcases toFixed2_charset _ c hc2 with h | h | h
      · exact Or.inl h
      · exact Or.inr (Or.inl h)
      · exact Or.inr (Or.inr (Or.inl h))
    · rcases List.mem_cons.mp hc2 with hc2 | hc2
      · exact Or.inr (Or.inl hc2)
      · rcases printNum_charset _ c hc2 with h | h | h
        · exact Or.inl h
        · exact Or.inr (Or.inl h)
        · exact Or.inr (Or.inr (Or.inl h))

theorem encHeader_no_slash (s : WaveformSection) : ('/' : Char) ∉ encHeader s := by
  intro hc
  rcases encHeader_charset s _ hc with h | h | h | h
  · exact absurd ((digit_char_props h).2.2.2.2.1) (by simp)
  all_goals simp at h

theorem encHeader_no_eq (s : WaveformSection) : ('=' : Char) ∉ encHeader s := by
  intro hc
  rcases encHeader_charset s _ hc with h | h | h | h
  · exact absurd ((digit_char_props h).2.2.2.2.2.1) (by simp)
  all_goals simp at h

theorem encSection_no_plus (i : ℕ) (s : WaveformSection) :
    ('+' : Char) ∉ encSection i s := by
  rw [encSection_eq]
  intro hc
  rcases List.mem_append.mp hc with hc | hc
  · rcases List.mem_append.mp hc with hc | hc
    · split at hc
      · exact absurd hc (by decide)
      · simp at hc
    · rcases encHeader_charset s _ hc with h | h | h | h
      · exact absurd ((digit_char_props h).1) (by simp)
      all_goals simp at h
  · rcases List.mem_cons.mp hc with hc | hc
    · simp at hc
    · rcases encShape_charset s _ hc with h | h | h | h
      · exact absurd ((digit_char_props h).1) (by simp)
      all_goals simp at h

theorem parseHeaderVals_enc (i : ℕ) (s : WaveformSection) (hen : s.enabled = true) :
    parseHeaderVals ((if i = 0 then "0,1,8=".data else []) ++ encHeader s) =
      [printNum s.startFrequency, printNum s.endFrequency,
        printNum s.duration, printNum s.frequencyMode, ['1']] := by
  have hsplitH : splitC ',' (encHeader s) =
      [printNum s.startFrequency, printNum s.endFrequency,
        printNum s.duration, printNum s.frequencyMode, ['1']] := by
    unfold encHeader
    rw [hen]
    rw [if_pos rfl]
    apply splitC_joinSep (by simp)
    intro x hx
    simp only [List.mem_cons, List.mem_singleton, List.not_mem_nil, or_false] at hx
    rcases hx with rfl | rfl | rfl | rfl | rfl
    · intro hc
      rcases printNum_charset _ _ hc with h | h | h
      · exact absurd ((digit_char_props h).2.2.2.1) (by simp)
      all_goals simp at h
    · intro hc
      rcases printNum_charset _ _ hc with h | h | h
      · exact absurd ((digit_char_props h).2.2.2.1) (by simp)
      all_goals simp at h
    · intro hc
      rcases printNum_charset _ _ hc with h | h | h
      · exact absurd ((digit_char_props h).2.2.2.1) (by simp)
      all_goals simp at h
    · intro hc
      rcases printNum_charset _ _ hc with h | h | h
      · exact absurd ((digit_char_props h).2.2.2.1) (by simp)
      all_goals simp at h
    · decide
  by_cases hi : i = 0
  · rw [if_pos hi]
    unfold parseHeaderVals
    rw [if_pos (containsChar_iff.mpr (List.mem_append.mpr (Or.inl (by decide))))]
    have hdata : ("0,1,8=".data : List Char) ++ encHeader s =
        "0,1,8".data ++ '=' :: encHeader s := by
      rw [show ("0,1,8=".data : List Char) = "0,1,8".data ++ ['='] from by decide,
        List.append_assoc, List.singleton_append]
    rw [hdata, splitC_append_sep (by decide), splitC_no_sep (encHeader_no_eq s)]
    show splitC ',' (encHeader s) = _
    exact hsplitH
  · rw [if_neg hi, List.nil_append]
    unfold parseHeaderVals
    rw [if_neg (fun hcc => encHeader_no_eq s (containsChar_iff.mp hcc))]
    exact hsplitH

theorem parseStep_encSection (st : PState) (i : ℕ) (s : WaveformSection) (hg : SecGood s) :
    parseStep st i (encSection i s) =
      { sections := st.sections ++ [reSec i s],
        sf := st.sf.set i s.startFrequency, ef := st.ef.set i s.endFrequency,
        du := st.du.set i s.duration, fm := st.fm.set i s.frequencyMode } := by
  obtain ⟨hen, hshne, hgsf, hgef, hgdu, hdune, hgfm, hfmne, -⟩ := hg
  have hne : ¬ (encSection i s = []) := by
    rw [encSection_eq]
    simp
  have hnoslash : ('/' : Char) ∉ (if i = 0 then "0,1,8=".data else []) ++ encHeader s := by
    intro hc
    rcases List.mem_append.mp hc with hc | hc
    · split at hc
      · exact absurd hc (by decide)
      · simp at hc
    · exact encHeader_no_slash s hc
  have hbreak : breakFirst '/' (encSection i s) =
      some ((if i = 0 then "0,1,8=".data else []) ++ encHeader s, encShape s) := by
    rw [encSection_eq]
    exact breakFirst_append_sep hnoslash
  have hn0 : numAt [printNum s.startFrequency, printNum s.endFrequency,
      printNum s.duration, printNum s.frequencyMode, ['1']] 0 0 = s.startFrequency := by
    show numOr (printNum s.startFrequency) 0 = s.startFrequency
    exact numOr_printNum hgsf (fun h => h.symm)
  have hn1 : numAt [printNum s.startFrequency, printNum s.endFrequency,
      printNum s.duration, printNum s.frequencyMode, ['1']] 1 0 = s.endFrequency := by
    show numOr (printNum s.endFrequency) 0 = s.endFrequency
    exact numOr_printNum hgef (fun h => h.symm)
  have hn2 : numAt [printNum s.startFrequency, printNum s.endFrequency,
      printNum s.duration, printNum s.frequencyMode, ['1']] 2 8 = s.duration := by
    show numOr (printNum s.duration) 8 = s.duration
    exact numOr_printNum hgdu (fun h => absurd h hdune)
  have hn3 : numAt [printNum s.startFrequency, printNum s.endFrequency,
      printNum s.duration, printNum s.frequencyMode, ['1']] 3 1 = s.frequencyMode := by
    show numOr (printNum s.frequencyMode) 1 = s.frequencyMode
    exact numOr_printNum hgfm (fun h => absurd h hfmne)
  unfold parseStep
  rw [if_neg hne, hbreak]
  dsimp only
  rw [parseHeaderVals_enc i s hen, hn0, hn1, hn2, hn3]
  rw [if_pos (Or.inl (by simp))]
  unfold reSec reShape
  rfl

/-! ## The loop keeps at most three sections -/

theorem parseStep_sections_length (st : PState) (i : ℕ) (p : List Char) :
    (parseStep st i p).sections.length ≤ st.sections.length + 1 := by
  unfold parseStep
  split
  · omega
  · split
    · omega
    · dsimp only
      split
      · simp
      · simp

theorem parseLoop_sections_length (parts : List (List Char)) (i : ℕ) (st : PState) :
    (parseLoop parts i st).sections.length ≤ st.sections.length + (3 - i) := by
  induction parts generalizing i st with
  | nil =>
    rw [parseLoop]
    omega
  | cons p rest ih =>
    rw [parseLoop]
    split
    · omega
    · have h1 := parseStep_sections_length st i p
      have h2 := ih (i + 1) (parseStep st i p)
      omega

theorem parseWaveform_sections_le_three {data nm : String} {w : ParsedWaveform}
    (h : parseWaveform data nm = some w) : w.sections.length ≤ 3 := by
  unfold parseWaveform at h
  dsimp only at h
  split at h
  · exact absurd h (by simp)
  · split at h
    · exact absurd h (by simp)
    · split at h
      · exact absurd h (by simp)
      · rw [Option.some.injEq] at h
        subst h
        have := parseLoop_sections_length (splitSec (stripTag data.data)) 0
          ⟨[], [0, 0, 0], [0, 0, 0], [0, 0, 0], [1, 1, 1]⟩
        simpa using this

theorem stripTag_tag (J : List Char) : stripTag (tagChars ++ J) = J := by
  unfold stripTag
  rw [if_pos ?hsw]
  case hsw =>
    unfold lowerL
    rw [List.map_append]
    rw [show List.map lowerC tagChars = tagLower from by decide]
    exact lstartsWith_append_self _ _
  rw [show (17 : ℕ) = tagChars.length from rfl, List.drop_left]

/--
C3: for every successfully parsed waveform, re-parsing the re-encoded text
succeeds, preserves the number of sections, and preserves every section's
start frequency, end frequency, duration and frequency mode exactly; only
the textual form (and the decoded shape representation) may differ.
-/
theorem c3_roundtrip_preserves_structure (data nm nm2 : String) (w : ParsedWaveform)
    (h : parseWaveform data nm = some w) :
    ∃ w2, parseWaveform (encodeWaveform w) nm2 = some w2 ∧
      w2.sections.length = w.sections.length ∧
      List.Forall₂
        (fun a b =>
          b.startFrequency = a.startFrequency ∧ b.endFrequency = a.endFrequency ∧
            b.duration = a.duration ∧ b.frequencyMode = a.frequencyMode)
        w.sections w2.sections := by
  obtain ⟨hne, hgood, -⟩ := parseWaveform_some h
  have hlen3 := parseWaveform_sections_le_three h
  obtain ⟨s1, r1, hsec1⟩ := List.exists_cons_of_ne_nil hne
  cases r1 with
  | nil =>
    have hg1 : SecGood s1 := hgood s1 (by rw [hsec1]; simp)
    have hdl : (encodeWaveform w).data =
        tagChars ++ joinSep sepChars [encSection 0 s1] := by
      unfold encodeWaveform
      rw [hsec1]
      rfl
    have hsplit : splitSec (joinSep sepChars [encSection 0 s1]) = [encSection 0 s1] :=
      splitSec_no_plus (encSection_no_plus 0 s1)
    have hp2 : ∃ w2, parseWaveform (encodeWaveform w) nm2 = some w2 ∧
        w2.sections = [reSec 0 s1] := by
      unfold parseWaveform
      dsimp only
      rw [hdl]
      rw [if_neg (fun hg => hg.1 (lstartsWith_append_self _ _))]
      rw [stripTag_tag, hsplit]
      rw [if_neg (by simp)]
      rw [parseLoop, if_neg (show ¬ (3 ≤ 0) by decide), parseStep_encSection _ 0 s1 hg1]
      rw [parseLoop]
      rw [if_neg (by simp)]
      exact ⟨_, rfl, by simp⟩
    obtain ⟨w2, hpw2, hw2s⟩ := hp2
    refine ⟨w2, hpw2, ?_, ?_⟩
    · rw [hw2s, hsec1]
      rfl
    · rw [hw2s, hsec1]
      exact List.Forall₂.cons ⟨rfl, rfl, rfl, rfl⟩ List.Forall₂.nil
  | cons s2 r2 =>
    cases r2 with
    | nil =>
      have hg1 : SecGood s1 := hgood s1 (by rw [hsec1]; simp)
      have hg2 : SecGood s2 := hgood s2 (by rw [hsec1]; simp)
      have hdl : (encodeWaveform w).data =
          tagChars ++ joinSep sepChars [encSection 0 s1, encSection 1 s2] := by
        unfold encodeWaveform
        rw [hsec1]
        rfl
      have hsplit : splitSec (joinSep sepChars [encSection 0 s1, encSection 1 s2]) =
          [encSection 0 s1, encSection 1 s2] := by
        apply splitSec_joinSep (by simp)
        intro x hx
        simp only [List.mem_cons, List.mem_singleton, List.not_mem_nil, or_false] at hx
        rcases hx with rfl | rfl
        · exact encSection_no_plus 0 s1
        · exact encSection_no_plus 1 s2
      have hp2 : ∃ w2, parseWaveform (encodeWaveform w) nm2 = some w2 ∧
          w2.sections = [reSec 0 s1, reSec 1 s2] := by
        unfold parseWaveform
        dsimp only
        rw [hdl]
        rw [if_neg (fun hg => hg.1 (lstartsWith_append_self _ _))]
        rw [stripTag_tag, hsplit]
        rw [if_neg (by simp)]
        rw [parseLoop, if_neg (show ¬ (3 ≤ 0) by decide), parseStep_encSection _ 0 s1 hg1]
        rw [parseLoop, if_neg (show ¬ (3 ≤ 0 + 1) by decide), parseStep_encSection _ 1 s2 hg2]
        rw [parseLoop]
        rw [if_neg (by simp)]
        exact ⟨_, rfl, by simp⟩
      obtain ⟨w2, hpw2, hw2s⟩ := hp2
      refine ⟨w2, hpw2, ?_, ?_⟩
      · rw [hw2s, hsec1]
        rfl
      · rw [hw2s, hsec1]
        exact List.Forall₂.cons ⟨rfl, rfl, rfl, rfl⟩
          (List.Forall₂.cons ⟨rfl, rfl, rfl, rfl⟩ List.Forall₂.nil)
    | cons s3 r3 =>
      cases r3 with
      | nil =>
        have hg1 : SecGood s1 := hgood s1 (by rw [hsec1]; simp)
        have hg2 : SecGood s2 := hgood s2 (by rw [hsec1]; simp)
        have hg3 : SecGood s3 := hgood s3 (by rw [hsec1]; simp)
        have hdl : (encodeWaveform w).data =
            tagChars ++ joinSep sepChars
              [encSection 0 s1, encSection 1 s2, encSection 2 s3] := by
          unfold encodeWaveform
          rw [hsec1]
          rfl
        have hsplit : splitSec (joinSep sepChars
            [encSection 0 s1, encSection 1 s2, encSection 2 s3]) =
            [encSection 0 s1, encSection 1 s2, encSection 2 s3] := by
          apply splitSec_joinSep (by simp)
          intro x hx
          simp only [List.mem_cons, List.mem_singleton, List.not_mem_nil, or_false] at hx
          rcases hx with rfl | rfl | rfl
          · exact encSection_no_plus 0 s1
          · exact encSection_no_plus 1 s2
          · exact encSection_no_plus 2 s3
        have hp2 : ∃ w2, parseWaveform (encodeWaveform w) nm2 = some w2 ∧
            w2.sections = [reSec 0 s1, reSec 1 s2, reSec 2 s3] := by
          unfold parseWaveform
          dsimp only
          rw [hdl]
          rw [if_neg (fun hg => hg.1 (lstartsWith_append_self _ _))]
          rw [stripTag_tag, hsplit]
          rw [if_neg (by simp)]
          rw [parseLoop, if_neg (show ¬ (3 ≤ 0) by decide), parseStep_encSection _ 0 s1 hg1]
          rw [parseLoop, if_neg (show ¬ (3 ≤ 0 + 1) by decide), parseStep_encSection _ 1 s2 hg2]
          rw [parseLoop, if_neg (show ¬ (3 ≤ 0 + 1 + 1) by decide), parseStep_encSection _ 2 s3 hg3]
          rw [parseLoop]
          rw [if_neg (by simp)]
          exact ⟨_, rfl, by simp⟩
        obtain ⟨w2, hpw2, hw2s⟩ := hp2
        refine ⟨w2, hpw2, ?_, ?_⟩
        · rw [hw2s, hsec1]
          rfl
        · rw [hw2s, hsec1]
          exact List.Forall₂.cons ⟨rfl, rfl, rfl, rfl⟩
            (List.Forall₂.cons ⟨rfl, rfl, rfl, rfl⟩
              (List.Forall₂.cons ⟨rfl, rfl, rfl, rfl⟩ List.Forall₂.nil))
      | cons s4 r4 =>
        exfalso
        rw [hsec1] at hlen3
        simp at hlen3

/-- C3 demo: the parse of a concrete two-section waveform text. -/
def c3Demo : ParsedWaveform :=
  { name := "n"
    metadata :=
      { startFrequencies := [10, 15, 0], endFrequencies := [20, 25, 0],
        durations := [5, 4, 0], frequencyModes := [2, 3, 1],
        section2Enabled := true, section3Enabled := false, playbackSpeed := 1 }
    sections := [
      { index := 0, enabled := true, startFrequency := 10, endFrequency := 20,
        duration := 5, frequencyMode := 2,
        shape := [{ shapeType := 0, strength := 50 }, { shapeType := 1, strength := 60 }] },
      { index := 1, enabled := true, startFrequency := 15, endFrequency := 25,
        duration := 4, frequencyMode := 3,
        shape := [{ shapeType := 0, strength := 30 }] }]
    rawData := "Dungeonlab+pulse:10,20,5,2,1/50.00-0,60.00-1+section+15,25,4,3,1/30.00-0"
    hexWaveforms := ["1415151632333435", "1617171835363738", "1819191a393a3a3b",
      "1a1b1b1c3c3c3c3c", "1c1d1d1e3c3c3c3c", "191a1a1b1e1e1e1e", "1c1c1d1d1e1e1e1e",
      "1e1f1f201e1e1e1e", "212122221e1e1e1e"] }

/-- C3 witness: the round trip at a concrete two-section parse. -/
theorem c3_roundtrip_preserves_structure_witness :
    ∃ w2, parseWaveform (encodeWaveform c3Demo) "m" = some w2 ∧
      w2.sections.length = c3Demo.sections.length ∧
      List.Forall₂
        (fun a b =>
          b.startFrequency = a.startFrequency ∧ b.endFrequency = a.endFrequency ∧
            b.duration = a.duration ∧ b.frequencyMode = a.frequencyMode)
        c3Demo.sections w2.sections :=
  c3_roundtrip_preserves_structure
    "Dungeonlab+pulse:10,20,5,2,1/50.00-0,60.00-1+section+15,25,4,3,1/30.00-0" "n" "m"
    c3Demo (by with_unfolding_all decide)
